import Mathlib

set_option maxRecDepth 8000

/-
  Verification development for the urllru module
  (src/hyphe_backend/lib/urllru.py): a URL <-> LRU transcoder.

  Strings of the Python 2 source are byte strings (str); they are modelled
  as List Char where every character stands for one byte.  Raising an
  exception is modelled as Option.none (except in lru_variations, where two
  distinct exception kinds matter and an explicit error type is used).
-/

namespace Urllru

/-- Text models a Python 2 byte string. -/
abbrev Text := List Char

/-- Python rstrip with a single-character argument: removes every trailing
occurrence of that character. -/
def pyRstrip (s : Text) (c : Char) : Text :=
  (s.reverse.dropWhile (fun x => x = c)).reverse

/-- Python str.lower on one byte: only ASCII letters change. -/
def pyLowerChar (c : Char) : Char :=
  if 'A' ≤ c ∧ c ≤ 'Z' then Char.ofNat (c.toNat + 32) else c

/-- Python str.lower. -/
def pyLower (s : Text) : Text := s.map pyLowerChar

/-- Regex class \d. -/
def isDigitChar (c : Char) : Bool := decide ('0' ≤ c) && decide (c ≤ '9')

def isHexLetterLower (c : Char) : Bool := decide ('a' ≤ c) && decide (c ≤ 'f')

/-- Regex class [\da-f] after lowercasing (the patterns using it carry re.I). -/
def isHexClassLower (c : Char) : Bool := isDigitChar c || isHexLetterLower c

/-- The capture class of the stem pattern lruStems = ([shtpqf]:) at
urllru.py line 15. -/
def isStemType (c : Char) : Bool :=
  c = 's' || c = 'h' || c = 't' || c = 'p' || c = 'q' || c = 'f'

/-- The ([shtpqf]): core of the stem pattern as a lookahead: the captured
type character when the text starts with a stem type and a colon. -/
def stemCap : Text → Option Char
  | t :: ':' :: _ => if isStemType t then some t else none
  | _ => none

/-- One scanning pass of the Python re.split on lruStems, pattern
(?:^|\x7c)([shtpqf]):, strictly after the start of the string, so only the
pipe branch of the alternation can open a match.  acc holds, reversed, the
plain piece accumulated since the previous match; skip counts characters of
an already-reported match still to be consumed; re.split output alternates
plain pieces with the single captured group. -/
def splitStemsGo : Text → Text → Nat → List Text
  | [], acc, _ => [acc.reverse]
  | _ :: rest, acc, skip + 1 => splitStemsGo rest acc skip
  | c :: rest, acc, 0 =>
    if c = '|' then
      match stemCap rest with
      | some t => acc.reverse :: [t] :: splitStemsGo rest [] 2
      | none => splitStemsGo rest ('|' :: acc) 0
    else splitStemsGo rest (c :: acc) 0

/-- re.split of lruStems over a whole string: at position zero the ^ branch
of (?:^|\x7c) applies, afterwards splitStemsGo scans. -/
def lruStemsSplit (s : Text) : List Text :=
  match stemCap s with
  | some t => [] :: [t] :: splitStemsGo s [] 2
  | none => splitStemsGo s [] 0

/-- One (\d{1,3}\.) component of the dotted-quad alternative of
special_hosts.  The digit run is maximal; a run of four or more digits can
never shrink into a match because the character after the shortened run is
still a digit, not the required dot. -/
def quadComp (s : Text) : Option Text :=
  let d := s.takeWhile isDigitChar
  let r := s.dropWhile isDigitChar
  if 1 ≤ d.length ∧ d.length ≤ 3 ∧ r.headD ' ' = '.' then some r.tail else none

/-- The (\d{1,3}\.)<rep 3>\d{1,3} alternative of special_hosts, as a prefix
match: three digit-dot components then at least one digit. -/
def quadMatch (s : Text) : Bool :=
  match quadComp s with
  | none => false
  | some s1 =>
    match quadComp s1 with
    | none => false
    | some s2 =>
      match quadComp s2 with
      | none => false
      | some s3 => 1 ≤ (s3.takeWhile isDigitChar).length

/-- The \[[\da-f]*:[\da-f:]*\] alternative of special_hosts, as a prefix
match.  Both starred classes are maximal runs; shrinking either cannot help
because the character at the shortened position is in the class, never the
required colon or closing bracket. -/
def bracketMatch (s : Text) : Bool :=
  match s with
  | '[' :: r =>
    (match r.dropWhile isHexClassLower with
     | ':' :: r2 => ((r2.dropWhile (fun c => isHexClassLower c || c = ':')).headD ' ') = ']'
     | _ => false)
  | _ => false

/-- special_hosts.match of urllru.py line 17: does the string begin with
localhost, a dotted quad, or a bracketed IPv6-style literal.  re.I is
modelled by lowercasing the input first; every literal of the pattern is
lowercase. -/
def special_hosts_match (s : Text) : Bool :=
  let t := pyLower s
  "localhost".toList.isPrefixOf t || quadMatch t || bracketMatch t

/-- split_lru_in_stems, urllru.py lines 51-57.  Both the explicit ValueError
and the IndexError raised by elements[4] when fewer than two stems were
captured are modelled as none. -/
def split_lru_in_stems (lru : Text) (check : Bool) : Option (List (Text × Text × Text)) :=
  let elements := lruStemsSplit (pyRstrip lru '|')
  if ¬ check ∧ elements.length < 2 then some []
  else if elements.length < 2 ∨ elements.getD 0 [] ≠ [] ∨
      (check ∧ (elements.length < 6 ∨ elements.getD 1 [] ≠ ['s'] ∨ elements.getD 5 [] ≠ ['h'])
        ∧ ¬ special_hosts_match (elements.getD 4 [])) then none
  else some ((List.range ((elements.length - 1) / 2)).map (fun i =>
      (elements.getD (1 + 2*i) [], elements.getD (2 + 2*i) [],
       elements.getD (1 + 2*i) [] ++ ':' :: elements.getD (2 + 2*i) [])))

/-- Numeric value of a hex digit character. -/
def hexVal (c : Char) : Nat :=
  if isDigitChar c then c.toNat - '0'.toNat
  else if isHexLetterLower c then c.toNat - 'a'.toNat + 10
  else if 'A' ≤ c ∧ c ≤ 'F' then c.toNat - 'A'.toNat + 10
  else 0

def isHexDigit (c : Char) : Bool :=
  isDigitChar c || isHexLetterLower c || (decide ('A' ≤ c) && decide (c ≤ 'F'))

/-- Lookahead for unquote: the byte encoded by the two hex digits starting
the text, when present. -/
def hexPair : Text → Option Char
  | a :: b :: _ =>
      if isHexDigit a ∧ isHexDigit b then some (Char.ofNat (16 * hexVal a + hexVal b)) else none
  | _ => none

/-- Scanner of urllib.unquote; skip counts hex digits of an already-decoded
escape still to be consumed. -/
def pyUnquoteGo : Text → Nat → Text
  | [], _ => []
  | _ :: rest, skip + 1 => pyUnquoteGo rest skip
  | c :: rest, 0 =>
    if c = '%' then
      match hexPair rest with
      | some d => d :: pyUnquoteGo rest 2
      | none => '%' :: pyUnquoteGo rest 0
    else c :: pyUnquoteGo rest 0

/-- urllib.unquote of Python 2 at byte level: each %XY with two hex digits
becomes the byte XY; a percent sign not followed by two hex digits stays. -/
def pyUnquote (s : Text) : Text := pyUnquoteGo s 0

/-- The always_safe characters of Python 2 urllib.quote: ASCII letters,
digits, underscore, dot, dash. -/
def isAlwaysSafe (c : Char) : Bool :=
  (decide ('A' ≤ c) && decide (c ≤ 'Z')) || (decide ('a' ≤ c) && decide (c ≤ 'z')) ||
  isDigitChar c || c = '_' || c = '.' || c = '-'

def hexDigitUpper (n : Nat) : Char := "0123456789ABCDEF".toList.getD n '0'

/-- One character of urllib.quote output. -/
def quoteChar (safe : Text) (c : Char) : Text :=
  if isAlwaysSafe c || safe.contains c then [c]
  else ['%', hexDigitUpper (c.toNat / 16), hexDigitUpper (c.toNat % 16)]

/-- urllib.quote of Python 2 at byte level: characters in always_safe or in
the safe argument pass through, every other byte becomes a percent sign and
two uppercase hex digits. -/
def pyQuote (s : Text) (safe : Text) : Text := (s.map (quoteChar safe)).flatten

/-- uri_decode, urllru.py lines 19-23.  The utf-8 encode and decode round
trip of the source changes nothing at byte level, and its failure branch
falls back to plain unquote, so at byte level the function is unquote. -/
def uri_decode (text : Text) : Text := pyUnquote text

/-- uri_encode, urllru.py lines 25-29; same byte-level remark. -/
def uri_encode (text : Text) (safechars : Text) : Text := pyQuote text safechars

/-- uri_recode, urllru.py lines 31-34, restricted to query=False; the
query=True branch dispatches to uri_recode_query and is modelled there. -/
def uri_recode (text : Text) (safechars : Text) : Text :=
  uri_encode (uri_decode text) safechars

/-- Attempt to match ([^=]+)=([^&]+) of queryStems at the current position.
Both classes are maximal runs: the key runs to the first equals sign, the
value to the next ampersand; shrinking either run cannot recover a match
because the character at the shortened position is still in the class.  The
drop of the key run is either empty or starts with the equals sign itself,
so its nonemptiness stands for the literal match of the sign. -/
def queryPairMatch (s : Text) : Option (Text × Text) :=
  let k := s.takeWhile (fun c => c ≠ '=')
  let r := s.dropWhile (fun c => c ≠ '=')
  if k.isEmpty ∨ r.isEmpty then none
  else
    let v := r.tail.takeWhile (fun c => c ≠ '&')
    if v.isEmpty then none else some (k, v)

/-- Scanner of re.split on queryStems, pattern (?:^|&)([^=]+)=([^&]+),
strictly after the start of the string, so a match can only open at an
ampersand.  acc holds the reversed plain piece accumulated since the last
match; skip counts characters of an already-reported match still to be
consumed. -/
def querySplitGo : Text → Text → Nat → List Text
  | [], acc, _ => [acc.reverse]
  | _ :: rest, acc, skip + 1 => querySplitGo rest acc skip
  | c :: rest, acc, 0 =>
      if c = '&' then
        match queryPairMatch rest with
        | some (k, v) => acc.reverse :: k :: v :: querySplitGo rest [] (k.length + 1 + v.length)
        | none => querySplitGo rest ('&' :: acc) 0
      else querySplitGo rest (c :: acc) 0

/-- re.split of queryStems over a whole string; at position zero the ^
branch of the pattern applies. -/
def queryStemsSplit (s : Text) : List Text :=
  match queryPairMatch s with
  | some (k, v) => [] :: k :: v :: querySplitGo (s.drop (k.length + 1 + v.length)) [] 0
  | none => querySplitGo s [] 0

/-- Python string join. -/
def pyJoin (sep : Text) : List Text → Text
  | [] => []
  | [x] => x
  | x :: y :: rest => x ++ sep ++ pyJoin sep (y :: rest)

/-- uri_recode_query, urllru.py lines 36-40. -/
def uri_recode_query (query : Text) : Text :=
  let elements := queryStemsSplit query
  if elements.length = 1 then uri_recode query []
  else pyJoin ['&'] ((List.range ((elements.length - 1) / 3)).map (fun i =>
      uri_recode (elements.getD (1 + 3*i) []) [] ++ '=' :: uri_recode (elements.getD (2 + 3*i) []) []))

/-- add_trailing_pipe, urllru.py lines 236-239. -/
def add_trailing_pipe (lru : Text) : Text :=
  if lru.getLast? = some '|' then lru else lru ++ ['|']

/-- lru_parent_prefixes, urllru.py lines 42-49: after dropping the last
stem, the while loop renders every nonempty prefix of the remaining stem
texts, longest first. -/
def lru_parent_prefixes (lru : Text) : Option (List Text) :=
  (split_lru_in_stems lru true).map (fun stems =>
    let arr := (stems.map (fun st => st.2.2)).dropLast
    (List.range arr.length).map (fun i => pyJoin ['|'] (arr.take (arr.length - i)) ++ ['|']))

/-- lru_strip_standard_ports, urllru.py lines 199-200: every stem whose
full text is t:80 or t:443 is removed, with no regard to the scheme stem. -/
def lru_strip_standard_ports (lru : Text) : Option Text :=
  (split_lru_in_stems lru false).map (fun stems =>
    add_trailing_pipe (pyJoin ['|']
      ((stems.filter (fun st => ¬ (st.2.2 = "t:80".toList ∨ st.2.2 = "t:443".toList))).map
        (fun st => st.2.2))))

/-- lru_lowerize_host, urllru.py lines 202-203. -/
def lru_lowerize_host (lru : Text) : Option Text :=
  (split_lru_in_stems lru true).map (fun stems =>
    add_trailing_pipe (pyJoin ['|'] (stems.map (fun st =>
      if st.1 = ['s'] ∨ st.1 = ['h'] then pyLower st.2.2 else st.2.2))))

/-- Attempt to match (h:[^\x7c]*)\x7cp:\x7c? of re_host_trailing_slash at
the current position, with the end anchor; returns the retained group. -/
def hostSlashMatch (s : Text) : Option Text :=
  match s with
  | c1 :: c2 :: rest =>
    if c1 = 'h' ∧ c2 = ':' then
      let w := rest.takeWhile (fun c => c ≠ '|')
      let r := rest.dropWhile (fun c => c ≠ '|')
      if r = "|p:".toList ∨ r = "|p:|".toList then some ('h' :: ':' :: w) else none
    else none
  | _ => none

/-- lru_strip_host_trailing_slash, urllru.py lines 210-212: re.sub scans
left to right; the end anchor lets at most one position match, and the
replacement keeps the captured group, so the sub deletes the final empty
path stem. -/
def lru_strip_host_trailing_slash : Text → Text
  | [] => []
  | c :: rest =>
    match hostSlashMatch (c :: rest) with
    | some hw => hw
    | none => c :: lru_strip_host_trailing_slash rest

/-- lru_uriencode, urllru.py lines 233-234. -/
def lru_uriencode (lru : Text) : Option Text :=
  (split_lru_in_stems lru true).map (fun stems =>
    add_trailing_pipe (pyJoin ['|'] (stems.map (fun st =>
      if st.1 = ['p'] ∨ st.1 = ['q'] ∨ st.1 = ['f'] then
        st.1 ++ ':' :: (if st.1 = ['q'] then uri_recode_query st.2.1
                        else uri_recode st.2.1 (if st.1 = ['p'] then "/+".toList else []))
      else st.2.2))))

/-- lru_clean, urllru.py lines 242-251; the passes commented out in the
source are skipped here as well. -/
def lru_clean (lru : Text) : Option Text := do
  let s1 ← lru_strip_standard_ports lru
  let s2 ← lru_lowerize_host s1
  let s3 := lru_strip_host_trailing_slash s2
  let s4 ← lru_uriencode s3
  pure (add_trailing_pipe s4)

/-- Scanner of re_host_lru = (([sth]:[^|]*(\x7c|$))+) as a prefix match;
the flag is true at a stem start and false inside a stem value. -/
def hostRunScan : Text → Bool → Text
  | s, true =>
    (match s with
     | k :: ':' :: rest =>
        if k = 's' ∨ k = 't' ∨ k = 'h' ∨ k = 'S' ∨ k = 'T' ∨ k = 'H' then
          k :: ':' :: hostRunScan rest false
        else []
     | _ => [])
  | s, false =>
    (match s with
     | [] => []
     | '|' :: rest => '|' :: hostRunScan rest true
     | c :: rest => c :: hostRunScan rest false)

/-- lru_get_head, urllru.py lines 264-271.  The AttributeError raised when
no exception applies and re_host_lru does not match is modelled as none. -/
def lru_get_head (lru : Text) (precision_exceptions : List Text) : Option Text :=
  let possible := precision_exceptions.foldl (fun acc e =>
    if e.isPrefixOf lru ∧ acc.length < e.length then e else acc) []
  if possible ≠ [] then some possible
  else
    let run := hostRunScan lru true
    if run = [] then none else some (add_trailing_pipe run)

/-- Python str.replace with empty replacement: scan left to right over
non-overlapping occurrences; skip counts characters of an occurrence being
consumed. -/
def pyReplaceAllGo (pat : Text) : Text → Nat → Text
  | [], _ => []
  | _ :: rest, skip + 1 => pyReplaceAllGo pat rest skip
  | c :: rest, 0 =>
      if pat ≠ [] ∧ pat.isPrefixOf (c :: rest) then pyReplaceAllGo pat rest (pat.length - 1)
      else c :: pyReplaceAllGo pat rest 0

def pyReplaceAll (s pat : Text) : Text := pyReplaceAllGo pat s 0

/-- lru_is_node, urllru.py lines 274-277, along the default path where the
head is resolved through lru_get_head. -/
def lru_is_node (lru : Text) (precision_limit : Nat) (precision_exceptions : List Text) :
    Option Bool := do
  let head ← lru_get_head lru precision_exceptions
  let stems ← split_lru_in_stems (pyReplaceAll lru head) false
  pure (decide (stems.length ≤ precision_limit))

/-- Groups of a lruFullPattern match. -/
structure UrlGroups where
  scheme : Text
  authority : Option Text
  path : Text
  query : Option Text
  fragment : Option Text
deriving Repr, DecidableEq

def isUrlDelim (c : Char) : Bool := c = ':' || c = '/' || c = '?' || c = '#'

/-- lruFullPattern.match of urllru.py line 12: scheme, optional double
slash plus authority, path, optional query, optional fragment.  Every
starred class stops at its first delimiter, so matching is deterministic. -/
def urlParse (url : Text) : Option UrlGroups :=
  let scheme := url.takeWhile (fun c => ¬ isUrlDelim c)
  if scheme.isEmpty then none
  else
    match url.dropWhile (fun c => ¬ isUrlDelim c) with
    | ':' :: r1 =>
      let auth : Option Text × Text :=
        match r1 with
        | '/' :: '/' :: r =>
          (some (r.takeWhile (fun c => ¬ (c = '/' ∨ c = '?' ∨ c = '#'))),
           r.dropWhile (fun c => ¬ (c = '/' ∨ c = '?' ∨ c = '#')))
        | _ => (none, r1)
      let path := auth.2.takeWhile (fun c => ¬ (c = '?' ∨ c = '#'))
      let r3 := auth.2.dropWhile (fun c => ¬ (c = '?' ∨ c = '#'))
      match r3 with
      | '?' :: r4 =>
        let q := r4.takeWhile (fun c => c ≠ '#')
        (match r4.dropWhile (fun c => c ≠ '#') with
         | '#' :: r6 => some ⟨scheme, auth.1, path, some q, some r6⟩
         | _ => some ⟨scheme, auth.1, path, some q, none⟩)
      | '#' :: r6 => some ⟨scheme, auth.1, path, none, some r6⟩
      | _ => some ⟨scheme, auth.1, path, none, none⟩
    | _ => none

/-- lruSchemePattern.match of urllru.py line 13: the pattern https? as an
unanchored, case-sensitive prefix match succeeds exactly when the text
starts with http. -/
def lruSchemePatternMatches (s : Text) : Bool := "http".toList.isPrefixOf s

/-- Regex class \s of a Python 2 byte pattern. -/
def isSpaceChar (c : Char) : Bool :=
  c = ' ' || c = '\t' || c = '\n' || c = '\x0b' || c = '\x0c' || c = '\r'

/-- Consume \[[\da-f]*:[\da-f:]*\] (under re.I) at the start of the text;
returns the consumed text and the rest. -/
def bracketConsume (s : Text) : Option (Text × Text) :=
  match s with
  | '[' :: r =>
    let h1 := r.takeWhile (fun c => isHexClassLower (pyLowerChar c))
    (match r.dropWhile (fun c => isHexClassLower (pyLowerChar c)) with
     | ':' :: r2 =>
       let h2 := r2.takeWhile (fun c => isHexClassLower (pyLowerChar c) || c = ':')
       (match r2.dropWhile (fun c => isHexClassLower (pyLowerChar c) || c = ':') with
        | ']' :: r3 => some ('[' :: (h1 ++ ':' :: (h2 ++ [']'])), r3)
        | _ => none)
     | _ => none)
  | _ => none

/-- The optional (:(\d+))?$ tail of lruAuthorityPattern after the host. -/
def authPost (host : Text) (rest : Text) : Option (Text × Option Text) :=
  match rest with
  | [] => some (host, none)
  | ':' :: ds => if ds ≠ [] ∧ ds.all isDigitChar then some (host, some ds) else none
  | _ => none

/-- The plain-host alternative [^\s:]+ of lruAuthorityPattern followed by
the optional port and the end anchor.  The host run is maximal; a shorter
run cannot match since the character at the shortened position is neither
the colon of a port nor the end. -/
def plainHostMatch (r : Text) : Option (Text × Option Text) :=
  let host := r.takeWhile (fun c => ¬ (isSpaceChar c || c = ':'))
  if host.isEmpty then none
  else authPost host (r.dropWhile (fun c => ¬ (isSpaceChar c || c = ':')))

/-- The (\[...\]|[^\s:]+)(?::(\d+))?$ tail of lruAuthorityPattern: the
bracket alternative is preferred, the plain host is the fallback. -/
def hostPortMatch (r : Text) : Option (Text × Option Text) :=
  match bracketConsume r with
  | some br =>
    (match authPost br.1 br.2 with
     | some hp => some hp
     | none => plainHostMatch r)
  | none => plainHostMatch r

/-- Userinfo candidates of lruAuthorityPattern in the order the regex
explores them: ([^:]+) is greedy, so its length runs from the maximal
colon-free prefix downward; at each length the (:([^@]+)) group is tried
first when a colon follows, otherwise a literal at sign is required; the
final candidate drops the whole optional group.  The argument is the
candidate userinfo length. -/
def authUserinfoCands (s : Text) : Nat → List ((Option Text × Option Text) × Text)
  | 0 => [((none, none), s)]
  | a + 1 =>
    let user := s.take (a + 1)
    let tailPart := s.drop (a + 1)
    let opts : List ((Option Text × Option Text) × Text) :=
      match tailPart with
      | ':' :: t2 =>
        let pw := t2.takeWhile (fun c => c ≠ '@')
        (match t2.dropWhile (fun c => c ≠ '@') with
         | '@' :: rest => if pw.isEmpty then [] else [((some user, some pw), rest)]
         | _ => [])
      | '@' :: rest => [((some user, none), rest)]
      | _ => []
    opts ++ authUserinfoCands s a

/-- lruAuthorityPattern.match of urllru.py line 14: the first userinfo
candidate whose remainder matches host and optional port up to the end
anchor wins. -/
def lruAuthorityMatch (s : Text) : Option (Option Text × Option Text × Text × Option Text) :=
  (authUserinfoCands s (s.takeWhile (fun c => c ≠ ':')).length).findSome? (fun cand =>
    (hostPortMatch cand.2).map (fun hp => (cand.1.1, cand.1.2, hp.1, hp.2)))

/-- url_to_lru, urllru.py lines 95-136 (encode_utf8 changes nothing at byte
level); the final raise of ValueError is none. -/
def url_to_lru (url : Text) : Option Text :=
  match urlParse url with
  | none => none
  | some g =>
    match g.authority with
    | none => none
    | some authority =>
      if lruSchemePatternMatches g.scheme ∧ authority ≠ [] then
        match lruAuthorityMatch authority with
        | none => none
        | some (_, _, host, port) =>
          let hostRev :=
            (if special_hosts_match host then [host]
             else (pyLower host).splitOn '.').reverse
          let tokens :=
            ["s:".toList ++ pyLower g.scheme,
             "t:".toList ++ (match port with
               | some p => p
               | none => if g.scheme = "https".toList then "443".toList else "80".toList)] ++
            (if hostRev ≠ [] then
              (hostRev.filter (fun st => st ≠ [])).map (fun st => "h:".toList ++ st)
             else []) ++
            (if g.path ≠ [] then
              (let path := uri_recode g.path "/+".toList
               let path1 := if path.headD ' ' = '/' then path.tail else path
               (path1.splitOn '/').map (fun st => "p:".toList ++ st))
             else []) ++
            (match g.query with
             | some q => ["q:".toList ++ uri_recode_query q]
             | none => []) ++
            (match g.fragment with
             | some f => ["f:".toList ++ uri_recode f []]
             | none => [])
          some (add_trailing_pipe (pyJoin ['|'] tokens))
      else none

/-- lruPattern.match of urllru.py line 11, pattern
^s:[^|]+(\x7ct:[^|]+)?(\x7ch:[^|]+)+ as a boolean prefix match. -/
def lruHStemAt (r : Text) : Bool :=
  match r with
  | '|' :: 'h' :: ':' :: r2 => ¬ (r2.takeWhile (fun c => c ≠ '|')).isEmpty
  | _ => false

/-- The optional port group of lruPattern followed by the mandatory host
group.  If a port stem is present but no host stem follows it, dropping the
optional group cannot recover a match: the text then starts with t, not h. -/
def lruTStemThenH (r : Text) : Bool :=
  match r with
  | '|' :: 't' :: ':' :: r2 =>
    (¬ (r2.takeWhile (fun c => c ≠ '|')).isEmpty) &&
      lruHStemAt (r2.dropWhile (fun c => c ≠ '|'))
  | _ => false

def lruPatternMatches (lru : Text) : Bool :=
  match lru with
  | 's' :: ':' :: rest =>
    (¬ (rest.takeWhile (fun c => c ≠ '|')).isEmpty) &&
      (lruTStemThenH (rest.dropWhile (fun c => c ≠ '|')) ||
       lruHStemAt (rest.dropWhile (fun c => c ≠ '|')))
  | _ => false

/-- lru_to_url, urllru.py lines 141-186, without utf-8 encoding; the
IndexError when no scheme stem exists under nocheck is modelled as none. -/
def lru_to_url (lru : Text) (nocheck : Bool) : Option Text :=
  if ¬ lruPatternMatches lru ∧ ¬ nocheck then none
  else
    (split_lru_in_stems (pyRstrip lru '|') (¬ nocheck)).bind (fun stems =>
      let kts := stems.map (fun st => (st.1, st.2.1))
      let stemTypes := kts.foldl (fun acc kt => if acc.contains kt.1 then acc else acc ++ [kt.1]) []
      (kts.filter (fun kt => kt.1 = ['s'])).head?.map (fun s0 =>
        let url1 := s0.2 ++ "://".toList
        let hs := (kts.filter (fun kt => kt.1 = ['h'])).map (fun kt => kt.2)
        let url2 := url1 ++ pyJoin ['.'] hs.reverse
        let url3 := url2 ++
          (if stemTypes.contains ['t'] then
            (match (kts.filter (fun kt => kt.1 = ['t'])).head? with
             | some t0 =>
               if t0.2 ≠ [] ∧ t0.2 ≠ "80".toList ∧ t0.2 ≠ "443".toList then ':' :: t0.2 else []
             | none => [])
           else [])
        let path := pyJoin ['/'] ((kts.filter (fun kt => kt.1 = ['p'])).map (fun kt => kt.2))
        let url4 := url3 ++
          (if stemTypes.contains ['p'] then
            (if path ≠ [] then '/' :: uri_recode path "/+".toList
             else if kts.contains (['p'], []) then ['/'] else [])
           else [])
        let url5 := url4 ++
          (if stemTypes.contains ['q'] then
            (match (kts.filter (fun kt => kt.1 = ['q'])).head? with
             | some q0 =>
               if q0.2 ≠ [] ∨ kts.contains (['q'], []) then '?' :: uri_recode_query q0.2 else []
             | none => [])
           else [])
        url5 ++
          (if stemTypes.contains ['f'] then
            (match (kts.filter (fun kt => kt.1 = ['f'])).head? with
             | some f0 =>
               if f0.2 ≠ [] ∨ kts.contains (['f'], []) then '#' :: uri_recode f0.2 [] else []
             | none => [])
           else [])))

/-- url_to_lru_clean, urllru.py lines 138-139. -/
def url_to_lru_clean (url : Text) : Option Text :=
  (url_to_lru url).bind lru_clean

/-- Python substring membership, the in operator. -/
def pyInStr (pat : Text) : Text → Bool
  | [] => pat.isEmpty
  | c :: rest => pat.isPrefixOf (c :: rest) || pyInStr pat rest

/-- Python str.count: non-overlapping occurrences, scanning left to right;
skip counts characters of an occurrence being consumed. -/
def pyCountGo (pat : Text) : Text → Nat → Nat
  | [], _ => 0
  | _ :: rest, skip + 1 => pyCountGo pat rest skip
  | c :: rest, 0 =>
      if pat ≠ [] ∧ pat.isPrefixOf (c :: rest) then 1 + pyCountGo pat rest (pat.length - 1)
      else pyCountGo pat rest 0

def pyCount (s pat : Text) : Nat := pyCountGo pat s 0

/-- Python str.replace with count 1: only the first occurrence changes. -/
def pyReplaceFirst (pat repl : Text) : Text → Text
  | [] => if pat.isEmpty then repl else []
  | c :: rest =>
      if pat ≠ [] ∧ pat.isPrefixOf (c :: rest) then repl ++ (c :: rest).drop pat.length
      else c :: pyReplaceFirst pat repl rest

/-- The two exception kinds that can escape lru_variations. -/
inductive PyErr where
  | valueError
  | unboundLocal
deriving Repr, DecidableEq

/-- lru_variations, urllru.py lines 288-309, with the default arguments
(encode_utf8 is immaterial at byte level).  A ValueError from any URL
conversion is valueError; reading lru2 at the if statement of line 296 when
neither scheme substring occurred is the UnboundLocalError of the source,
unboundLocal.  The URL strings produced by lru_to_url always start with the
scheme and are never empty, matching the truthiness tests of the source. -/
def lru_variations (lru : Text) : Except PyErr (List Text) := do
  let url ← match lru_to_url lru false with
    | none => Except.error PyErr.valueError
    | some u => pure u
  let olru2 : Option Text :=
    if pyInStr "s:http|".toList lru then
      some (pyReplaceFirst "s:http|".toList "s:https|".toList lru)
    else if pyInStr "s:https|".toList lru then
      some (pyReplaceFirst "s:https|".toList "s:http|".toList lru)
    else none
  match olru2 with
  | none => Except.error PyErr.unboundLocal
  | some lru2 => do
    let start ←
      if lru2 ≠ [] then do
        let u2 ← match lru_to_url lru2 false with
          | none => Except.error PyErr.valueError
          | some u => pure u
        pure ([lru, lru2], some u2)
      else pure ([lru], (none : Option Text))
    if pyCount lru "|h:".toList = 1 then pure start.1
    else do
      let conv : Text → Except PyErr Text := fun u =>
        match url_to_lru_clean u with
        | none => Except.error PyErr.valueError
        | some l => pure l
      if pyInStr "//www.".toList url then do
        let v1 ← conv (pyReplaceFirst "//www.".toList "//".toList url)
        let more ← match start.2 with
          | some u2 => do
            let v2 ← conv (pyReplaceFirst "//www.".toList "//".toList u2)
            pure [v2]
          | none => pure ([] : List Text)
        pure (start.1 ++ [v1] ++ more)
      else do
        let v1 ← conv (pyReplaceFirst "//".toList "//www.".toList url)
        let more ← match start.2 with
          | some u2 => do
            let v2 ← conv (pyReplaceFirst "//".toList "//www.".toList u2)
            pure [v2]
          | none => pure ([] : List Text)
        pure (start.1 ++ [v1] ++ more)

/-
  Machinery: stem lists, renderings, and the round trip between rendering
  and the stem split.
-/

/-- A stem as a pair of type character and value; its text form is k:v . -/
abbrev Stem := Char × Text

def stemText (st : Stem) : Text := st.1 :: ':' :: st.2

/-- The triple that split_lru_in_stems returns for one stem. -/
def stemTriple (st : Stem) : Text × Text × Text := ([st.1], st.2, stemText st)

/-- The pipe-joined, pipe-terminated rendering of a stem list: the shape of
every LRU built by the passes of lru_clean. -/
def renderLru (stems : List Stem) : Text :=
  add_trailing_pipe (pyJoin ['|'] (stems.map stemText))

/-- Every stem has a type in shtpqf and a pipe-free value. -/
def StemsClean (stems : List Stem) : Prop :=
  ∀ st ∈ stems, isStemType st.1 = true ∧ '|' ∉ st.2

/-- The rendering tail: each stem preceded by a pipe separator. -/
def tailJoin (stems : List Stem) : Text :=
  (stems.map (fun st => '|' :: stemText st)).flatten

/-- The element list that re.split of lruStems produces for a stem list,
after the leading empty piece. -/
def stemElems (stems : List Stem) : List Text :=
  (stems.map (fun st => [[st.1], st.2])).flatten

theorem tailJoin_cons (st : Stem) (r : List Stem) :
    tailJoin (st :: r) = '|' :: st.1 :: ':' :: (st.2 ++ tailJoin r) := by
  simp [tailJoin, stemText]

theorem stemElems_cons (st : Stem) (r : List Stem) :
    stemElems (st :: r) = [st.1] :: st.2 :: stemElems r := by
  simp [stemElems]

theorem stemElems_length (stems : List Stem) :
    (stemElems stems).length = 2 * stems.length := by
  induction stems with
  | nil => simp [stemElems]
  | cons st r ih => rw [stemElems_cons]; simp [ih]; ring

theorem pyJoin_stemText_cons (s0 : Stem) (rest : List Stem) :
    pyJoin ['|'] ((s0 :: rest).map stemText) = stemText s0 ++ tailJoin rest := by
  induction rest generalizing s0 with
  | nil => simp [pyJoin, tailJoin]
  | cons s1 r ih =>
    have h1 : pyJoin ['|'] ((s0 :: s1 :: r).map stemText) =
        stemText s0 ++ ['|'] ++ pyJoin ['|'] ((s1 :: r).map stemText) := by
      simp [pyJoin]
    rw [h1, ih s1, tailJoin_cons]
    simp [stemText]

theorem splitStemsGo_nil (acc : Text) (n : Nat) : splitStemsGo [] acc n = [acc.reverse] := rfl

theorem splitStemsGo_skip2 (a b : Char) (r acc : Text) :
    splitStemsGo (a :: b :: r) acc 2 = splitStemsGo r acc 0 := rfl

theorem splitStemsGo_cons_ne (c : Char) (hc : ¬ c = '|') (rest acc : Text) :
    splitStemsGo (c :: rest) acc 0 = splitStemsGo rest (c :: acc) 0 := by
  simp [splitStemsGo, hc]

theorem splitStemsGo_boundary (t : Char) (ht : isStemType t = true) (r2 acc : Text) :
    splitStemsGo ('|' :: t :: ':' :: r2) acc 0 =
      acc.reverse :: [t] :: splitStemsGo r2 [] 0 := by
  simp [splitStemsGo, stemCap, ht]

theorem splitStemsGo_append_noPipe (v : Text) (hv : '|' ∉ v) (r acc : Text) :
    splitStemsGo (v ++ r) acc 0 = splitStemsGo r (v.reverse ++ acc) 0 := by
  induction v generalizing acc with
  | nil => simp
  | cons c v ih =>
    have hc : ¬ c = '|' := by
      intro h; exact hv (h ▸ List.mem_cons_self c v)
    have hv2 : '|' ∉ v := fun h => hv (List.mem_cons_of_mem c h)
    rw [List.cons_append, splitStemsGo_cons_ne c hc, ih hv2]
    simp

theorem splitStemsGo_tailJoin (stems : List Stem) (h : StemsClean stems) (acc : Text) :
    splitStemsGo (tailJoin stems) acc 0 = acc.reverse :: stemElems stems := by
  induction stems generalizing acc with
  | nil => simp [tailJoin, stemElems, splitStemsGo_nil]
  | cons st r ih =>
    have hst := h st (List.mem_cons_self st r)
    have hr : StemsClean r := fun x hx => h x (List.mem_cons_of_mem st hx)
    rw [tailJoin_cons, splitStemsGo_boundary st.1 hst.1,
      splitStemsGo_append_noPipe st.2 hst.2, stemElems_cons]
    rw [ih hr]
    simp

theorem lruStemsSplit_join (stems : List Stem) (h : StemsClean stems) (hne : stems ≠ []) :
    lruStemsSplit (pyJoin ['|'] (stems.map stemText)) = [] :: stemElems stems := by
  match stems, hne with
  | s0 :: rest, _ =>
    have hs0 := h s0 (List.mem_cons_self s0 rest)
    have hr : StemsClean rest := fun x hx => h x (List.mem_cons_of_mem s0 hx)
    rw [pyJoin_stemText_cons]
    show lruStemsSplit (s0.1 :: ':' :: (s0.2 ++ tailJoin rest)) = _
    unfold lruStemsSplit
    rw [show stemCap (s0.1 :: ':' :: (s0.2 ++ tailJoin rest)) = some s0.1 by
      simp [stemCap, hs0.1]]
    rw [show splitStemsGo (s0.1 :: ':' :: (s0.2 ++ tailJoin rest)) [] 2 =
        splitStemsGo (s0.2 ++ tailJoin rest) [] 0 from rfl]
    rw [splitStemsGo_append_noPipe s0.2 hs0.2, splitStemsGo_tailJoin rest hr, stemElems_cons]
    simp

theorem pyRstrip_append_pipe (x : Text) : pyRstrip (x ++ ['|']) '|' = pyRstrip x '|' := by
  simp [pyRstrip]

theorem pyRstrip_no_pipe_end (x : Text) (h : x.getLast? ≠ some '|') : pyRstrip x '|' = x := by
  unfold pyRstrip
  rcases hx : x.reverse with _ | ⟨c, t⟩
  · simp_all [List.reverse_eq_nil_iff.mp hx]
  · have hgl : x.getLast? = some c := by rw [← List.head?_reverse, hx]; rfl
    have hc : ¬ (c = '|') := by intro hcp; exact h (hcp ▸ hgl)
    rw [List.dropWhile_cons_of_neg (by simpa using hc), ← hx]
    simp

theorem stemText_getLast (st : Stem) (h : '|' ∉ st.2) :
    (stemText st).getLast? ≠ some '|' := by
  by_cases hv : st.2 = []
  · simp [stemText, hv]
  · have hrepr : stemText st = [st.1, ':'] ++ st.2 := rfl
    rw [hrepr, List.getLast?_append_of_ne_nil _ hv]
    intro hcontra
    exact h (List.mem_of_mem_getLast? hcontra)

theorem pyJoin_stemText_getLast (stems : List Stem) (h : StemsClean stems) (hne : stems ≠ []) :
    (pyJoin ['|'] (stems.map stemText)).getLast? ≠ some '|' := by
  match stems, hne with
  | [st], _ =>
    have hst := h st (List.mem_cons_self st [])
    simpa [pyJoin] using stemText_getLast st hst.2
  | s0 :: s1 :: r, _ =>
    have hr : StemsClean (s1 :: r) := fun x hx => h x (List.mem_cons_of_mem s0 hx)
    have ih := pyJoin_stemText_getLast (s1 :: r) hr (by simp)
    have hjoin : pyJoin ['|'] ((s0 :: s1 :: r).map stemText) =
        (stemText s0 ++ ['|']) ++ pyJoin ['|'] ((s1 :: r).map stemText) := by
      simp [pyJoin]
    have hnonnil : pyJoin ['|'] ((s1 :: r).map stemText) ≠ [] := by
      rw [pyJoin_stemText_cons]
      simp [stemText]
    rw [hjoin, List.getLast?_append_of_ne_nil _ hnonnil]
    exact ih

theorem renderLru_eq (stems : List Stem) (h : StemsClean stems) (hne : stems ≠ []) :
    renderLru stems = pyJoin ['|'] (stems.map stemText) ++ ['|'] := by
  unfold renderLru add_trailing_pipe
  rw [if_neg (pyJoin_stemText_getLast stems h hne)]

theorem pyRstrip_renderLru (stems : List Stem) (h : StemsClean stems) (hne : stems ≠ []) :
    pyRstrip (renderLru stems) '|' = pyJoin ['|'] (stems.map stemText) := by
  rw [renderLru_eq stems h hne, pyRstrip_append_pipe,
    pyRstrip_no_pipe_end _ (pyJoin_stemText_getLast stems h hne)]

theorem stemElems_getD_fst (stems : List Stem) (i : Nat) (h : i < stems.length) :
    (stemElems stems).getD (2*i) [] = [(stems.get ⟨i, h⟩).1] := by
  induction stems generalizing i with
  | nil => simp at h
  | cons st r ih =>
    cases i with
    | zero => simp [stemElems_cons]
    | succ j =>
      have hj : j < r.length := Nat.lt_of_succ_lt_succ h
      have : 2 * (j + 1) = (2 * j) + 1 + 1 := by ring
      rw [stemElems_cons, this]
      simpa using ih j hj

theorem stemElems_getD_snd (stems : List Stem) (i : Nat) (h : i < stems.length) :
    (stemElems stems).getD (2*i + 1) [] = (stems.get ⟨i, h⟩).2 := by
  induction stems generalizing i with
  | nil => simp at h
  | cons st r ih =>
    cases i with
    | zero => simp [stemElems_cons]
    | succ j =>
      have hj : j < r.length := Nat.lt_of_succ_lt_succ h
      have : 2 * (j + 1) + 1 = (2 * j + 1) + 1 + 1 := by ring
      rw [stemElems_cons, this]
      simpa using ih j hj

theorem elems_getD_one (stems : List Stem) (hne : stems ≠ []) :
    (([] : Text) :: stemElems stems).getD 1 [] = [(stems.getD 0 ('x', [])).1] := by
  match stems, hne with
  | s0 :: r, _ => simp [stemElems_cons]

theorem elems_getD_four (stems : List Stem) (hne : stems ≠ []) :
    (([] : Text) :: stemElems stems).getD 4 [] = (stems.getD 1 ('x', [])).2 := by
  match stems, hne with
  | [s0], _ => simp [stemElems]
  | s0 :: s1 :: r, _ => simp [stemElems_cons]

theorem elems_getD_five (stems : List Stem) (h : 3 ≤ stems.length) :
    (([] : Text) :: stemElems stems).getD 5 [] = [(stems.getD 2 ('x', [])).1] := by
  match stems, h with
  | s0 :: s1 :: s2 :: r, _ => simp [stemElems_cons]

theorem extract_elems (stems : List Stem) :
    (List.range stems.length).map (fun i =>
      ((([] : Text) :: stemElems stems).getD (1 + 2*i) [],
       (([] : Text) :: stemElems stems).getD (2 + 2*i) [],
       (([] : Text) :: stemElems stems).getD (1 + 2*i) [] ++ ':' ::
         (([] : Text) :: stemElems stems).getD (2 + 2*i) [])) = stems.map stemTriple := by
  apply List.ext_getElem
  · simp
  · intro i h1 h2
    have hi : i < stems.length := by simpa using h2
    have e1 : (([] : Text) :: stemElems stems).getD (1 + 2*i) [] = [(stems.get ⟨i, hi⟩).1] := by
      have harith : 1 + 2*i = (2*i) + 1 := by ring
      rw [harith, List.getD_cons_succ, stemElems_getD_fst stems i hi]
    have e2 : (([] : Text) :: stemElems stems).getD (2 + 2*i) [] = (stems.get ⟨i, hi⟩).2 := by
      have harith : 2 + 2*i = (2*i + 1) + 1 := by ring
      rw [harith, List.getD_cons_succ, stemElems_getD_snd stems i hi]
    simp only [List.getElem_map, List.getElem_range]
    rw [e1, e2]
    simp [stemTriple, stemText]

/-- Success condition of the validating branch of split_lru_in_stems over a
stem list: either at least three stems with the first of type s and the
third of type h, or the value of the second stem matches special_hosts. -/
def splitCheckOK (stems : List Stem) : Prop :=
  (3 ≤ stems.length ∧ (stems.getD 0 ('x', [])).1 = 's' ∧ (stems.getD 2 ('x', [])).1 = 'h')
  ∨ special_hosts_match (stems.getD 1 ('x', [])).2 = true

theorem split_lru_in_stems_stems_false (t : Text) (stems : List Stem) (h : StemsClean stems)
    (hne : stems ≠ []) (ht : pyRstrip t '|' = pyJoin ['|'] (stems.map stemText)) :
    split_lru_in_stems t false = some (stems.map stemTriple) := by
  have hn1 : 0 < stems.length := List.length_pos.mpr hne
  have hlen : (([] : Text) :: stemElems stems).length = 2 * stems.length + 1 := by
    simp [stemElems_length]
  simp only [split_lru_in_stems]
  rw [ht, lruStemsSplit_join stems h hne]
  rw [if_neg (by intro hcontra; rw [hlen] at hcontra; exact absurd hcontra.2 (by omega))]
  rw [if_neg (by
    intro hcontra
    rcases hcontra with hl | hg | hc
    · rw [hlen] at hl; omega
    · exact hg rfl
    · exact Bool.false_ne_true hc.1)]
  rw [hlen]
  have hdiv : (2 * stems.length + 1 - 1) / 2 = stems.length := by omega
  rw [hdiv, extract_elems]

theorem split_lru_in_stems_stems_true (t : Text) (stems : List Stem) (h : StemsClean stems)
    (hne : stems ≠ []) (hchk : splitCheckOK stems)
    (ht : pyRstrip t '|' = pyJoin ['|'] (stems.map stemText)) :
    split_lru_in_stems t true = some (stems.map stemTriple) := by
  have hn1 : 0 < stems.length := List.length_pos.mpr hne
  have hlen : (([] : Text) :: stemElems stems).length = 2 * stems.length + 1 := by
    simp [stemElems_length]
  simp only [split_lru_in_stems]
  rw [ht, lruStemsSplit_join stems h hne]
  rw [if_neg (by intro hcontra; exact hcontra.1 trivial)]
  rw [if_neg (by
    intro hcontra
    rcases hcontra with hl | hg | hc
    · rw [hlen] at hl; omega
    · exact hg rfl
    · rcases hc with ⟨_, hbad, hnspec⟩
      rcases hchk with ⟨h3, hs, hh⟩ | hspec
      · rcases hbad with hl6 | hs2 | hh2
        · rw [hlen] at hl6; omega
        · exact hs2 (by rw [elems_getD_one stems hne, hs])
        · exact hh2 (by rw [elems_getD_five stems h3, hh])
      · exact hnspec (by rw [elems_getD_four stems hne]; exact hspec))]
  rw [hlen]
  have hdiv : (2 * stems.length + 1 - 1) / 2 = stems.length := by omega
  rw [hdiv, extract_elems]

theorem split_lru_in_stems_render_false (stems : List Stem) (h : StemsClean stems)
    (hne : stems ≠ []) :
    split_lru_in_stems (renderLru stems) false = some (stems.map stemTriple) :=
  split_lru_in_stems_stems_false _ stems h hne (pyRstrip_renderLru stems h hne)

theorem split_lru_in_stems_render_true (stems : List Stem) (h : StemsClean stems)
    (hne : stems ≠ []) (hchk : splitCheckOK stems) :
    split_lru_in_stems (renderLru stems) true = some (stems.map stemTriple) :=
  split_lru_in_stems_stems_true _ stems h hne hchk (pyRstrip_renderLru stems h hne)

theorem split_lru_in_stems_stems_true_fail (t : Text) (stems : List Stem) (h : StemsClean stems)
    (hne : stems ≠ []) (hchk : ¬ splitCheckOK stems)
    (ht : pyRstrip t '|' = pyJoin ['|'] (stems.map stemText)) :
    split_lru_in_stems t true = none := by
  have hn1 : 0 < stems.length := List.length_pos.mpr hne
  have hlen : (([] : Text) :: stemElems stems).length = 2 * stems.length + 1 := by
    simp [stemElems_length]
  simp only [split_lru_in_stems]
  rw [ht, lruStemsSplit_join stems h hne]
  rw [if_neg (by intro hcontra; exact hcontra.1 trivial)]
  rw [if_pos ?_]
  refine Or.inr (Or.inr ⟨trivial, ?_, ?_⟩)
  · by_cases h3 : 3 ≤ stems.length
    · have hnotleft : ¬ ((stems.getD 0 ('x', [])).1 = 's' ∧ (stems.getD 2 ('x', [])).1 = 'h') := by
        intro ⟨hs, hh⟩
        exact hchk (Or.inl ⟨h3, hs, hh⟩)
      by_cases hs : (stems.getD 0 ('x', [])).1 = 's'
      · refine Or.inr (Or.inr ?_)
        rw [elems_getD_five stems h3]
        intro hcontra
        apply hnotleft
        refine ⟨hs, ?_⟩
        injection hcontra
      · refine Or.inr (Or.inl ?_)
        rw [elems_getD_one stems hne]
        intro hcontra
        apply hs
        injection hcontra
    · refine Or.inl ?_
      rw [hlen]
      omega
  · rw [elems_getD_four stems hne]
    intro hcontra
    exact hchk (Or.inr hcontra)

/-
  Machinery: the percent-coding round trip.
-/

/-- Byte strings: every character codes one byte, the invariant of all
Python 2 str data handled by the source. -/
def ByteText (s : Text) : Prop := ∀ c ∈ s, c.toNat < 256

theorem hexDigitUpper_isHex (n : Nat) (h : n < 16) : isHexDigit (hexDigitUpper n) = true := by
  interval_cases n <;> decide

theorem hexVal_hexDigitUpper (n : Nat) (h : n < 16) : hexVal (hexDigitUpper n) = n := by
  interval_cases n <;> decide

theorem hexDigitUpper_mem (n : Nat) : hexDigitUpper n ∈ "0123456789ABCDEF".toList := by
  by_cases h : n < 16
  · interval_cases n <;> decide
  · unfold hexDigitUpper
    rw [List.getD_eq_default]
    · decide
    · rw [show ("0123456789ABCDEF".toList).length = 16 from rfl]
      omega

theorem hexVal_lt (c : Char) : hexVal c < 16 := by
  unfold hexVal
  have e0 : '0'.toNat = 48 := rfl
  have ea : 'a'.toNat = 97 := rfl
  have eA : 'A'.toNat = 65 := rfl
  split_ifs with h1 h2 h3
  · simp [isDigitChar] at h1
    have hb : c.toNat ≤ 57 := h1.2
    omega
  · simp [isHexLetterLower] at h2
    have hb : c.toNat ≤ 102 := h2.2
    omega
  · have hb : c.toNat ≤ 70 := h3.2
    omega
  · omega

/-- Character classes a quote output can contain. -/
def isQuoteOut (safe : Text) (x : Char) : Prop :=
  isAlwaysSafe x = true ∨ x ∈ safe ∨ x = '%' ∨ x ∈ "0123456789ABCDEF".toList

theorem quoteChar_out (safe : Text) (c x : Char) (hx : x ∈ quoteChar safe c) :
    isQuoteOut safe x := by
  unfold quoteChar at hx
  by_cases hc : (isAlwaysSafe c || safe.contains c) = true
  · rw [if_pos hc] at hx
    have hxc : x = c := by simpa using hx
    subst hxc
    rcases (by simpa using hc : isAlwaysSafe x = true ∨ x ∈ safe) with h1 | h2
    · exact Or.inl h1
    · exact Or.inr (Or.inl h2)
  · rw [if_neg hc] at hx
    have : x = '%' ∨ x = hexDigitUpper (c.toNat / 16) ∨ x = hexDigitUpper (c.toNat % 16) := by
      simpa using hx
    rcases this with h | h | h
    · exact Or.inr (Or.inr (Or.inl h))
    · exact Or.inr (Or.inr (Or.inr (h ▸ hexDigitUpper_mem _)))
    · exact Or.inr (Or.inr (Or.inr (h ▸ hexDigitUpper_mem _)))

theorem pyQuote_out (s safe : Text) (x : Char) (hx : x ∈ pyQuote s safe) :
    isQuoteOut safe x := by
  unfold pyQuote at hx
  rw [List.mem_flatten] at hx
  obtain ⟨l, hl, hxl⟩ := hx
  rw [List.mem_map] at hl
  obtain ⟨c, _, rfl⟩ := hl
  exact quoteChar_out safe c x hxl

theorem pyQuote_no_char (s safe : Text) (x : Char) (hA : isAlwaysSafe x = false)
    (hs : x ∉ safe) (hp : x ≠ '%') (hh : x ∉ "0123456789ABCDEF".toList) :
    x ∉ pyQuote s safe := by
  intro hmem
  rcases pyQuote_out s safe x hmem with h | h | h | h
  · rw [hA] at h; exact Bool.false_ne_true h
  · exact hs h
  · exact hp h
  · exact hh h

theorem isAlwaysSafe_byte (x : Char) (h : isAlwaysSafe x = true) : x.toNat < 256 := by
  unfold isAlwaysSafe isDigitChar at h
  simp only [Bool.or_eq_true, Bool.and_eq_true, decide_eq_true_eq] at h
  rcases h with ((((⟨_, h2⟩ | ⟨_, h2⟩) | ⟨_, h2⟩) | rfl) | rfl) | rfl
  · have hb : x.toNat ≤ 90 := h2
    omega
  · have hb : x.toNat ≤ 122 := h2
    omega
  · have hb : x.toNat ≤ 57 := h2
    omega
  · decide
  · decide
  · decide

theorem pyQuote_byte (s safe : Text) (hsafe : ByteText safe) : ByteText (pyQuote s safe) := by
  intro x hx
  rcases pyQuote_out s safe x hx with h | h | h | h
  · exact isAlwaysSafe_byte x h
  · exact hsafe x h
  · subst h; decide
  · have hall : ∀ y ∈ "0123456789ABCDEF".toList, y.toNat < 256 := by decide
    exact hall x h

theorem pyUnquoteGo_percent (rest : Text) (d : Char) (h : hexPair rest = some d) :
    pyUnquoteGo ('%' :: rest) 0 = d :: pyUnquoteGo rest 2 := by
  simp [pyUnquoteGo, h]

theorem pyUnquoteGo_skip2 (a b : Char) (r : Text) :
    pyUnquoteGo (a :: b :: r) 2 = pyUnquoteGo r 0 := rfl

theorem pyUnquoteGo_cons_ne (c : Char) (h : ¬ c = '%') (r : Text) :
    pyUnquoteGo (c :: r) 0 = c :: pyUnquoteGo r 0 := by
  simp [pyUnquoteGo, h]

theorem toNat_ofNat_byte (n : Nat) (h : n < 256) : (Char.ofNat n).toNat = n := by
  have hv : n.isValidChar := Or.inl (by omega)
  simp [Char.ofNat, hv]
  rfl

theorem hexPair_some (rest : Text) (d : Char) (h : hexPair rest = some d) :
    ∃ a b r2, rest = a :: b :: r2 ∧ isHexDigit a = true ∧ isHexDigit b = true ∧
      d = Char.ofNat (16 * hexVal a + hexVal b) := by
  match rest with
  | [] => simp [hexPair] at h
  | [a] => simp [hexPair] at h
  | a :: b :: r2 =>
    by_cases hab : isHexDigit a = true ∧ isHexDigit b = true
    · refine ⟨a, b, r2, rfl, hab.1, hab.2, ?_⟩
      have h2 : some (Char.ofNat (16 * hexVal a + hexVal b)) = some d := by
        rw [← h]; simp [hexPair, hab]
      injection h2 with h3
      exact h3.symm
    · exfalso
      have hnone : hexPair (a :: b :: r2) = none := by simp [hexPair, hab]
      rw [hnone] at h
      cases h

theorem pyUnquoteGo_byte (s : Text) (h : ByteText s) : ∀ n, ByteText (pyUnquoteGo s n) := by
  induction s with
  | nil => intro n; simp [pyUnquoteGo, ByteText]
  | cons c rest ih =>
    have hbc : c.toNat < 256 := h c (List.mem_cons_self c rest)
    have hbr : ByteText rest := fun x hx => h x (List.mem_cons_of_mem c hx)
    intro n
    match n with
    | Nat.succ m =>
      rw [show pyUnquoteGo (c :: rest) (m + 1) = pyUnquoteGo rest m from rfl]
      exact ih hbr m
    | 0 =>
      by_cases hc : c = '%'
      · subst hc
        rcases hhp : hexPair rest with _ | d
        · rw [show pyUnquoteGo ('%' :: rest) 0 = '%' :: pyUnquoteGo rest 0 from by
            simp [pyUnquoteGo, hhp]]
          intro x hx
          rcases List.mem_cons.mp hx with rfl | hx2
          · decide
          · exact ih hbr 0 x hx2
        · rw [pyUnquoteGo_percent rest d hhp]
          intro x hx
          rcases List.mem_cons.mp hx with rfl | hx2
          · obtain ⟨a, b, r2, _, _, _, hd⟩ := hexPair_some rest _ hhp
            have hlt : 16 * hexVal a + hexVal b < 256 := by
              have h1 := hexVal_lt a
              have h2 := hexVal_lt b
              omega
            rw [hd, toNat_ofNat_byte _ hlt]
            exact hlt
          · exact ih hbr 2 x hx2
      · rw [pyUnquoteGo_cons_ne c hc]
        intro x hx
        rcases List.mem_cons.mp hx with rfl | hx2
        · exact hbc
        · exact ih hbr 0 x hx2

theorem pyUnquote_byte (s : Text) (h : ByteText s) : ByteText (pyUnquote s) :=
  pyUnquoteGo_byte s h 0

theorem isAlwaysSafe_ne_percent (c : Char) (h : isAlwaysSafe c = true) : ¬ c = '%' := by
  intro hc
  subst hc
  exact absurd h (by decide)

theorem pyUnquote_pyQuote (s safe : Text) (hbyte : ByteText s) (hsafe : '%' ∉ safe) :
    pyUnquote (pyQuote s safe) = s := by
  induction s with
  | nil => rfl
  | cons c s ih =>
    have hb : c.toNat < 256 := hbyte c (List.mem_cons_self c s)
    have hbs : ByteText s := fun x hx => hbyte x (List.mem_cons_of_mem c hx)
    have hq : pyQuote (c :: s) safe = quoteChar safe c ++ pyQuote s safe := by
      simp [pyQuote]
    unfold pyUnquote at ih ⊢
    rw [hq]
    unfold quoteChar
    by_cases hc : (isAlwaysSafe c || safe.contains c) = true
    · rw [if_pos hc, List.singleton_append]
      have hcp : ¬ c = '%' := by
        intro hc2
        subst hc2
        have h1 : isAlwaysSafe '%' = false := by decide
        have h2 : safe.contains '%' = false := by
          rcases hcc : safe.contains '%' with _ | _
          · rfl
          · exact absurd (by simpa using hcc) hsafe
        rw [h1, h2] at hc
        exact Bool.false_ne_true hc
      rw [pyUnquoteGo_cons_ne c hcp, ih hbs]
    · rw [if_neg hc]
      have hd1 : c.toNat / 16 < 16 := by omega
      have hd2 : c.toNat % 16 < 16 := Nat.mod_lt _ (by norm_num)
      have hhp : hexPair (hexDigitUpper (c.toNat / 16) :: hexDigitUpper (c.toNat % 16) ::
          pyQuote s safe) = some c := by
        rw [show hexPair (hexDigitUpper (c.toNat / 16) :: hexDigitUpper (c.toNat % 16) ::
            pyQuote s safe) =
            (if isHexDigit (hexDigitUpper (c.toNat / 16)) = true ∧
                isHexDigit (hexDigitUpper (c.toNat % 16)) = true then
              some (Char.ofNat (16 * hexVal (hexDigitUpper (c.toNat / 16)) +
                hexVal (hexDigitUpper (c.toNat % 16))))
            else none) from rfl]
        rw [if_pos ⟨hexDigitUpper_isHex _ hd1, hexDigitUpper_isHex _ hd2⟩,
          hexVal_hexDigitUpper _ hd1, hexVal_hexDigitUpper _ hd2,
          show 16 * (c.toNat / 16) + c.toNat % 16 = c.toNat from Nat.div_add_mod c.toNat 16,
          Char.ofNat_toNat]
      rw [show ('%' :: hexDigitUpper (c.toNat / 16) :: hexDigitUpper (c.toNat % 16) :: []) ++
          pyQuote s safe = '%' :: hexDigitUpper (c.toNat / 16) :: hexDigitUpper (c.toNat % 16) ::
          pyQuote s safe from rfl]
      rw [pyUnquoteGo_percent _ c hhp, pyUnquoteGo_skip2, ih hbs]

/-- Idempotence of the recode helper on byte strings (the safe sets used by
the source never contain the percent sign). -/
theorem uri_recode_recode (t safe : Text) (hb : ByteText t) (hsafe : '%' ∉ safe) :
    uri_recode (uri_recode t safe) safe = uri_recode t safe := by
  unfold uri_recode uri_encode uri_decode
  rw [pyUnquote_pyQuote (pyUnquote t) safe (pyUnquote_byte t hb) hsafe]

/-
  Machinery: the query pair split.
-/

theorem takeWhile_append_all (p : Char → Bool) (u r : Text) (hu : ∀ x ∈ u, p x = true) :
    (u ++ r).takeWhile p = u ++ r.takeWhile p := by
  induction u with
  | nil => simp
  | cons c u ih =>
    rw [List.cons_append, List.takeWhile_cons_of_pos (hu c (List.mem_cons_self c u)),
      ih (fun x hx => hu x (List.mem_cons_of_mem c hx))]
    rfl

theorem dropWhile_append_all (p : Char → Bool) (u r : Text) (hu : ∀ x ∈ u, p x = true) :
    (u ++ r).dropWhile p = r.dropWhile p := by
  induction u with
  | nil => simp
  | cons c u ih =>
    rw [List.cons_append, List.dropWhile_cons_of_pos (hu c (List.mem_cons_self c u)),
      ih (fun x hx => hu x (List.mem_cons_of_mem c hx))]

/-- Build direction of queryPairMatch: a key, an equals sign, a value, and
a rest that is empty or opens with an ampersand, match as expected. -/
theorem queryPairMatch_build (k v rest : Text) (hk : k ≠ []) (hke : '=' ∉ k)
    (hv : v ≠ []) (hva : '&' ∉ v) (hrest : rest = [] ∨ ∃ r2, rest = '&' :: r2) :
    queryPairMatch (k ++ '=' :: (v ++ rest)) = some (k, v) := by
  have hkall : ∀ x ∈ k, (fun c => decide (c ≠ '=')) x = true := by
    intro x hx
    simp only [decide_eq_true_eq]
    intro hxe
    exact hke (hxe ▸ hx)
  have htk : (k ++ '=' :: (v ++ rest)).takeWhile (fun c => c ≠ '=') = k := by
    rw [takeWhile_append_all _ k _ hkall, List.takeWhile_cons_of_neg (by simp)]
    simp
  have htd : (k ++ '=' :: (v ++ rest)).dropWhile (fun c => c ≠ '=') = '=' :: (v ++ rest) := by
    rw [dropWhile_append_all _ k _ hkall, List.dropWhile_cons_of_neg (by simp)]
  have hvall : ∀ x ∈ v, (fun c => decide (c ≠ '&')) x = true := by
    intro x hx
    simp only [decide_eq_true_eq]
    intro hxe
    exact hva (hxe ▸ hx)
  have htv : (v ++ rest).takeWhile (fun c => c ≠ '&') = v := by
    rcases hrest with rfl | ⟨r2, rfl⟩
    · rw [List.append_nil, List.takeWhile_eq_self_iff]
      exact hvall
    · rw [takeWhile_append_all _ v _ hvall, List.takeWhile_cons_of_neg (by simp)]
      simp
  simp only [queryPairMatch]
  rw [htk, htd]
  rw [if_neg (by simp [hk])]
  rw [show ('=' :: (v ++ rest)).tail = v ++ rest from rfl, htv]
  rw [if_neg (by simpa using hv)]

/-- Inversion of queryPairMatch: a successful match decomposes the text and
constrains the captured key and value. -/
theorem dropWhile_head_false (p : Char → Bool) (s : Text) (c : Char) (r : Text)
    (h : s.dropWhile p = c :: r) : p c = false := by
  induction s with
  | nil => simp at h
  | cons a rest ih =>
    by_cases ha : p a
    · rw [List.dropWhile_cons_of_pos ha] at h
      exact ih h
    · rw [List.dropWhile_cons_of_neg ha] at h
      injection h with h1 _
      subst h1
      simpa using ha

theorem queryPairMatch_some (s k v : Text) (h : queryPairMatch s = some (k, v)) :
    k ≠ [] ∧ '=' ∉ k ∧ v ≠ [] ∧ '&' ∉ v ∧
      s = k ++ '=' :: (v ++ s.drop (k.length + 1 + v.length)) := by
  simp only [queryPairMatch] at h
  by_cases hc1 : (s.takeWhile (fun c => c ≠ '=')).isEmpty ∨
      (s.dropWhile (fun c => c ≠ '=')).isEmpty
  · rw [if_pos hc1] at h; cases h
  · rw [if_neg hc1] at h
    by_cases hc2 : ((s.dropWhile (fun c => c ≠ '=')).tail.takeWhile (fun c => c ≠ '&')).isEmpty
    · rw [if_pos hc2] at h; cases h
    · rw [if_neg hc2] at h
      injection h with hpair
      have hkk : k = s.takeWhile (fun c => c ≠ '=') := congrArg Prod.fst hpair.symm
      have hvv : v = (s.dropWhile (fun c => c ≠ '=')).tail.takeWhile (fun c => c ≠ '&') :=
        congrArg Prod.snd hpair.symm
      push_neg at hc1
      rcases hdw : s.dropWhile (fun c => c ≠ '=') with _ | ⟨c, r2⟩
      · exact absurd (by rw [hdw]; rfl) hc1.2
      · have hceq : c = '=' := by
          have := dropWhile_head_false _ s c r2 hdw
          simpa using this
        subst hceq
        have hk2 : k ≠ [] := by
          rw [hkk]
          intro hemp
          exact hc1.1 (by rw [hemp]; rfl)
        have hke : '=' ∉ k := by
          rw [hkk]
          intro hmem
          have := List.mem_takeWhile_imp hmem
          simp at this
        have hv2 : v ≠ [] := by
          rw [hvv]
          intro hemp
          rw [hemp] at hc2
          exact hc2 rfl
        have hva : '&' ∉ v := by
          rw [hvv]
          intro hmem
          have := List.mem_takeWhile_imp hmem
          simp at this
        have hvr : v = r2.takeWhile (fun c => c ≠ '&') := by
          rw [hvv, hdw]
          rfl
        have hr2 : r2 = v ++ r2.dropWhile (fun c => c ≠ '&') := by
          rw [hvr]
          exact (List.takeWhile_append_dropWhile _ _).symm
        have hs : s = k ++ '=' :: (v ++ r2.dropWhile (fun c => c ≠ '&')) := by
          conv_lhs => rw [← List.takeWhile_append_dropWhile (p := fun c => decide (c ≠ '=')) (l := s)]
          rw [hdw, ← hkk]
          conv_lhs => rw [hr2]
        have hdrop : s.drop (k.length + 1 + v.length) = r2.dropWhile (fun c => c ≠ '&') := by
          conv_lhs => rw [hs]
          rw [show k ++ '=' :: (v ++ r2.dropWhile (fun c => c ≠ '&')) =
            (k ++ '=' :: v) ++ r2.dropWhile (fun c => c ≠ '&') by simp]
          rw [show k.length + 1 + v.length = (k ++ '=' :: v).length by simp; omega]
          exact List.drop_left _ _
        exact ⟨hk2, hke, hv2, hva, by rw [← hdrop] at hs; exact hs⟩

theorem querySplitGo_skip_len (u : Text) : ∀ (tail acc : Text),
    querySplitGo (u ++ tail) acc u.length = querySplitGo tail acc 0 := by
  induction u with
  | nil => intro tail acc; rfl
  | cons c u ih =>
    intro tail acc
    rw [List.cons_append, List.length_cons, show querySplitGo (c :: (u ++ tail)) acc
      (u.length + 1) = querySplitGo (u ++ tail) acc u.length from rfl, ih tail acc]

theorem querySplitGo_amp_some (rest acc : Text) (k v : Text)
    (h : queryPairMatch rest = some (k, v)) :
    querySplitGo ('&' :: rest) acc 0 =
      acc.reverse :: k :: v :: querySplitGo rest [] (k.length + 1 + v.length) := by
  simp [querySplitGo, h]

theorem querySplitGo_amp_none (rest acc : Text) (h : queryPairMatch rest = none) :
    querySplitGo ('&' :: rest) acc 0 = querySplitGo rest ('&' :: acc) 0 := by
  simp [querySplitGo, h]

theorem querySplitGo_cons_ne (c : Char) (hc : ¬ c = '&') (rest acc : Text) :
    querySplitGo (c :: rest) acc 0 = querySplitGo rest (c :: acc) 0 := by
  simp [querySplitGo, hc]

theorem queryStemsSplit_eq_some (s k v : Text) (h : queryPairMatch s = some (k, v)) :
    queryStemsSplit s = [] :: k :: v :: querySplitGo (s.drop (k.length + 1 + v.length)) [] 0 := by
  unfold queryStemsSplit
  rw [h]

theorem queryStemsSplit_eq_none (s : Text) (h : queryPairMatch s = none) :
    queryStemsSplit s = querySplitGo s [] 0 := by
  unfold queryStemsSplit
  rw [h]

/-- Pairs suitable for an exact render and re-split round trip. -/
def QueryPairsOK (pairs : List (Text × Text)) : Prop :=
  ∀ kv ∈ pairs, kv.1 ≠ [] ∧ '=' ∉ kv.1 ∧ '&' ∉ kv.1 ∧ kv.2 ≠ [] ∧ '&' ∉ kv.2

/-- The rendering of query pairs, ampersand-joined key=value texts. -/
def renderQuery (pairs : List (Text × Text)) : Text :=
  pyJoin ['&'] (pairs.map (fun kv => kv.1 ++ '=' :: kv.2))

/-- The rendering tail: each pair preceded by an ampersand. -/
def tailQJoin (pairs : List (Text × Text)) : Text :=
  (pairs.map (fun kv => '&' :: (kv.1 ++ '=' :: kv.2))).flatten

/-- The element blocks of a queryStems split: key, value, following piece. -/
def qBlockElems (blocks : List (Text × Text × Text)) : List Text :=
  (blocks.map (fun b => [b.1, b.2.1, b.2.2])).flatten

theorem renderQuery_cons (kv : Text × Text) (rest : List (Text × Text)) :
    renderQuery (kv :: rest) = kv.1 ++ '=' :: kv.2 ++ tailQJoin rest := by
  induction rest generalizing kv with
  | nil => simp [renderQuery, pyJoin, tailQJoin]
  | cons kv2 r ih =>
    have h1 : renderQuery (kv :: kv2 :: r) =
        (kv.1 ++ '=' :: kv.2) ++ ['&'] ++ renderQuery (kv2 :: r) := by
      simp [renderQuery, pyJoin]
    rw [h1, ih kv2]
    simp [tailQJoin]

theorem tailQJoin_shape (pairs : List (Text × Text)) :
    tailQJoin pairs = [] ∨ ∃ r2, tailQJoin pairs = '&' :: r2 := by
  rcases pairs with _ | ⟨kv2, r⟩
  · exact Or.inl (by simp [tailQJoin])
  · refine Or.inr ⟨kv2.1 ++ '=' :: kv2.2 ++ tailQJoin r, ?_⟩
    simp [tailQJoin]

theorem drop_pair_len (k v rest : Text) :
    (k ++ '=' :: (v ++ rest)).drop (k.length + 1 + v.length) = rest := by
  rw [show k ++ '=' :: (v ++ rest) = (k ++ '=' :: v) ++ rest by simp]
  rw [show k.length + 1 + v.length = (k ++ '=' :: v).length by simp; omega]
  exact List.drop_left _ _

theorem querySplitGo_tailQ (pairs : List (Text × Text)) (h : QueryPairsOK pairs) :
    ∀ acc, querySplitGo (tailQJoin pairs) acc 0 =
      acc.reverse :: qBlockElems (pairs.map (fun kv => (kv.1, kv.2, ([] : Text)))) := by
  induction pairs with
  | nil => intro acc; simp [tailQJoin, qBlockElems, querySplitGo]
  | cons kv rest ih =>
    intro acc
    have hkv := h kv (List.mem_cons_self kv rest)
    have hrest : QueryPairsOK rest := fun x hx => h x (List.mem_cons_of_mem kv hx)
    have htail : tailQJoin (kv :: rest) =
        '&' :: (kv.1 ++ '=' :: (kv.2 ++ tailQJoin rest)) := by
      simp [tailQJoin]
    have hmatch := queryPairMatch_build kv.1 kv.2 (tailQJoin rest)
      hkv.1 hkv.2.1 hkv.2.2.2.1 hkv.2.2.2.2 (tailQJoin_shape rest)
    rw [htail, querySplitGo_amp_some _ _ _ _ hmatch]
    rw [show kv.1 ++ '=' :: (kv.2 ++ tailQJoin rest) =
        (kv.1 ++ '=' :: kv.2) ++ tailQJoin rest by simp]
    rw [show kv.1.length + 1 + kv.2.length = (kv.1 ++ '=' :: kv.2).length by simp; omega]
    rw [querySplitGo_skip_len, ih hrest]
    simp [qBlockElems]

/-- Re-split of a rendered query: the split recovers the pairs exactly. -/
theorem queryStemsSplit_render (pairs : List (Text × Text)) (h : QueryPairsOK pairs)
    (hne : pairs ≠ []) :
    queryStemsSplit (renderQuery pairs) =
      [] :: qBlockElems (pairs.map (fun kv => (kv.1, kv.2, ([] : Text)))) := by
  match pairs, hne with
  | kv :: rest, _ =>
    have hkv := h kv (List.mem_cons_self kv rest)
    have hrest : QueryPairsOK rest := fun x hx => h x (List.mem_cons_of_mem kv hx)
    have hr : renderQuery (kv :: rest) = kv.1 ++ '=' :: (kv.2 ++ tailQJoin rest) := by
      rw [renderQuery_cons]; simp
    have hmatch := queryPairMatch_build kv.1 kv.2 (tailQJoin rest)
      hkv.1 hkv.2.1 hkv.2.2.2.1 hkv.2.2.2.2 (tailQJoin_shape rest)
    rw [hr, queryStemsSplit_eq_some _ _ _ hmatch, drop_pair_len]
    rw [querySplitGo_tailQ rest hrest]
    simp [qBlockElems]

theorem qBlockElems_cons (b : Text × Text × Text) (r : List (Text × Text × Text)) :
    qBlockElems (b :: r) = b.1 :: b.2.1 :: b.2.2 :: qBlockElems r := by
  simp [qBlockElems]

theorem qBlockElems_length (blocks : List (Text × Text × Text)) :
    (qBlockElems blocks).length = 3 * blocks.length := by
  induction blocks with
  | nil => simp [qBlockElems]
  | cons b r ih => rw [qBlockElems_cons]; simp [ih]; ring

theorem qBlockElems_getD_k (blocks : List (Text × Text × Text)) (i : Nat)
    (h : i < blocks.length) :
    (qBlockElems blocks).getD (3*i) [] = (blocks.get ⟨i, h⟩).1 := by
  induction blocks generalizing i with
  | nil => simp at h
  | cons b r ih =>
    cases i with
    | zero => simp [qBlockElems_cons]
    | succ j =>
      have hj : j < r.length := Nat.lt_of_succ_lt_succ h
      have harith : 3 * (j + 1) = (3 * j) + 1 + 1 + 1 := by ring
      rw [qBlockElems_cons, harith]
      simpa using ih j hj

theorem qBlockElems_getD_v (blocks : List (Text × Text × Text)) (i : Nat)
    (h : i < blocks.length) :
    (qBlockElems blocks).getD (3*i + 1) [] = (blocks.get ⟨i, h⟩).2.1 := by
  induction blocks generalizing i with
  | nil => simp at h
  | cons b r ih =>
    cases i with
    | zero => simp [qBlockElems_cons]
    | succ j =>
      have hj : j < r.length := Nat.lt_of_succ_lt_succ h
      have harith : 3 * (j + 1) + 1 = (3 * j + 1) + 1 + 1 + 1 := by ring
      rw [qBlockElems_cons, harith]
      simpa using ih j hj

/-- Constraints every block of a queryStems split satisfies: the key is
nonempty without equals signs, the value nonempty without ampersands, and
both consist of characters of the split text. -/
def QSBlocksOK (s : Text) (blocks : List (Text × Text × Text)) : Prop :=
  ∀ b ∈ blocks, b.1 ≠ [] ∧ '=' ∉ b.1 ∧ b.2.1 ≠ [] ∧ '&' ∉ b.2.1 ∧ b.1 ⊆ s ∧ b.2.1 ⊆ s

theorem querySplitGo_shape (n : Nat) : ∀ (s : Text), s.length ≤ n → ∀ acc,
    ∃ p blocks, querySplitGo s acc 0 = (acc.reverse ++ p) :: qBlockElems blocks ∧
      QSBlocksOK s blocks := by
  induction n with
  | zero =>
    intro s hs acc
    have hnil : s = [] := List.length_eq_zero.mp (Nat.le_zero.mp hs)
    subst hnil
    exact ⟨[], [], by simp [querySplitGo, qBlockElems], by intro b hb; cases hb⟩
  | succ m ih =>
    intro s hs acc
    match s with
    | [] => exact ⟨[], [], by simp [querySplitGo, qBlockElems], by intro b hb; cases hb⟩
    | c :: rest =>
      have hrlen : rest.length ≤ m := by simpa using Nat.le_of_succ_le_succ hs
      by_cases hc : c = '&'
      · subst hc
        rcases hqm : queryPairMatch rest with _ | ⟨k, v⟩
        · obtain ⟨p, blocks, heq, hok⟩ := ih rest hrlen ('&' :: acc)
          refine ⟨'&' :: p, blocks, ?_, ?_⟩
          · rw [querySplitGo_amp_none rest acc hqm, heq]
            simp
          · intro b hb
            obtain ⟨h1, h2, h3, h4, h5, h6⟩ := hok b hb
            exact ⟨h1, h2, h3, h4, fun _ hx => List.mem_cons_of_mem _ (h5 hx),
              fun _ hx => List.mem_cons_of_mem _ (h6 hx)⟩
        · obtain ⟨hk, hke, hv, hva, hdecomp⟩ := queryPairMatch_some rest k v hqm
          have hlen2 : (rest.drop (k.length + 1 + v.length)).length ≤ m := by
            rw [List.length_drop]
            omega
          obtain ⟨p, blocks, heq, hok⟩ := ih (rest.drop (k.length + 1 + v.length)) hlen2 []
          refine ⟨[], (k, v, p) :: blocks, ?_, ?_⟩
          · rw [querySplitGo_amp_some rest acc k v hqm]
            rw [show querySplitGo rest [] (k.length + 1 + v.length) =
                querySplitGo (rest.drop (k.length + 1 + v.length)) [] 0 from by
              conv_lhs => rw [hdecomp]
              rw [show k ++ '=' :: (v ++ rest.drop (k.length + 1 + v.length)) =
                  (k ++ '=' :: v) ++ rest.drop (k.length + 1 + v.length) by simp]
              rw [show k.length + 1 + v.length = (k ++ '=' :: v).length by simp; omega]
              exact querySplitGo_skip_len _ _ _]
            rw [heq, qBlockElems_cons]
            simp
          · intro b hb
            rcases List.mem_cons.mp hb with rfl | hb2
            · have hksub : k ⊆ '&' :: rest := by
                intro x hx
                apply List.mem_cons_of_mem
                rw [hdecomp]
                exact List.mem_append.mpr (Or.inl hx)
              have hvsub : v ⊆ '&' :: rest := by
                intro x hx
                apply List.mem_cons_of_mem
                rw [hdecomp]
                exact List.mem_append.mpr (Or.inr (List.mem_cons_of_mem _
                  (List.mem_append.mpr (Or.inl hx))))
              exact ⟨hk, hke, hv, hva, hksub, hvsub⟩
            · obtain ⟨h1, h2, h3, h4, h5, h6⟩ := hok b hb2
              have hdropsub : rest.drop (k.length + 1 + v.length) ⊆ '&' :: rest := by
                intro x hx
                exact List.mem_cons_of_mem _ (List.drop_subset _ _ hx)
              exact ⟨h1, h2, h3, h4, fun _ hx => hdropsub (h5 hx), fun _ hx => hdropsub (h6 hx)⟩
      · obtain ⟨p, blocks, heq, hok⟩ := ih rest hrlen (c :: acc)
        refine ⟨c :: p, blocks, ?_, ?_⟩
        · rw [querySplitGo_cons_ne c hc, heq]
          simp
        · intro b hb
          obtain ⟨h1, h2, h3, h4, h5, h6⟩ := hok b hb
          exact ⟨h1, h2, h3, h4, fun _ hx => List.mem_cons_of_mem _ (h5 hx),
            fun _ hx => List.mem_cons_of_mem _ (h6 hx)⟩

/-- Every queryStems split is a leading piece followed by blocks of key,
value, and a piece, with constrained keys and values. -/
theorem queryStemsSplit_shape (s : Text) :
    ∃ p0 blocks, queryStemsSplit s = p0 :: qBlockElems blocks ∧ QSBlocksOK s blocks := by
  rcases hqm : queryPairMatch s with _ | ⟨k, v⟩
  · obtain ⟨p, blocks, heq, hok⟩ := querySplitGo_shape s.length s le_rfl []
    refine ⟨p, blocks, ?_, hok⟩
    rw [queryStemsSplit_eq_none s hqm, heq]
    simp
  · obtain ⟨hk, hke, hv, hva, hdecomp⟩ := queryPairMatch_some s k v hqm
    obtain ⟨p, blocks, heq, hok⟩ :=
      querySplitGo_shape (s.drop (k.length + 1 + v.length)).length _ le_rfl []
    refine ⟨[], (k, v, p) :: blocks, ?_, ?_⟩
    · rw [queryStemsSplit_eq_some s k v hqm, heq, qBlockElems_cons]
      simp
    · intro b hb
      rcases List.mem_cons.mp hb with rfl | hb2
      · have hksub : k ⊆ s := by
          intro x hx
          rw [hdecomp]
          exact List.mem_append.mpr (Or.inl hx)
        have hvsub : v ⊆ s := by
          intro x hx
          rw [hdecomp]
          exact List.mem_append.mpr (Or.inr (List.mem_cons_of_mem _
            (List.mem_append.mpr (Or.inl hx))))
        exact ⟨hk, hke, hv, hva, hksub, hvsub⟩
      · obtain ⟨h1, h2, h3, h4, h5, h6⟩ := hok b hb2
        exact ⟨h1, h2, h3, h4, fun _ hx => List.drop_subset _ _ (h5 hx),
          fun _ hx => List.drop_subset _ _ (h6 hx)⟩

/-- Evaluation of uri_recode_query from a split in block shape. -/
theorem uri_recode_query_eq_blocks (s p0 : Text) (blocks : List (Text × Text × Text))
    (hsplit : queryStemsSplit s = p0 :: qBlockElems blocks) (hne : blocks ≠ []) :
    uri_recode_query s =
      pyJoin ['&'] (blocks.map (fun b => uri_recode b.1 [] ++ '=' :: uri_recode b.2.1 [])) := by
  have hbpos : 0 < blocks.length := List.length_pos.mpr hne
  have hlen : (p0 :: qBlockElems blocks).length = 3 * blocks.length + 1 := by
    simp [qBlockElems_length]
  simp only [uri_recode_query]
  rw [hsplit]
  rw [if_neg (by rw [hlen]; omega)]
  rw [hlen]
  have hdiv : (3 * blocks.length + 1 - 1) / 3 = blocks.length := by omega
  rw [hdiv]
  apply congrArg
  apply List.ext_getElem
  · simp
  · intro i h1 h2
    have hi : i < blocks.length := by simpa using h2
    have e1 : (p0 :: qBlockElems blocks).getD (1 + 3*i) [] = (blocks.get ⟨i, hi⟩).1 := by
      have harith : 1 + 3*i = (3*i) + 1 := by ring
      rw [harith, List.getD_cons_succ, qBlockElems_getD_k blocks i hi]
    have e2 : (p0 :: qBlockElems blocks).getD (2 + 3*i) [] = (blocks.get ⟨i, hi⟩).2.1 := by
      have harith : 2 + 3*i = (3*i + 1) + 1 := by ring
      rw [harith, List.getD_cons_succ, qBlockElems_getD_v blocks i hi]
    simp only [List.getElem_map, List.getElem_range]
    rw [e1, e2]
    simp

theorem queryPairMatch_none_no_eq (s : Text) (h : '=' ∉ s) : queryPairMatch s = none := by
  have hdw : s.dropWhile (fun c => c ≠ '=') = [] := by
    rw [List.dropWhile_eq_nil_iff]
    intro x hx
    simp only [decide_eq_true_eq]
    intro hxe
    exact h (hxe ▸ hx)
  simp only [queryPairMatch]
  rw [hdw]
  simp

theorem querySplitGo_no_eq (s : Text) (h : '=' ∉ s) : ∀ acc,
    querySplitGo s acc 0 = [acc.reverse ++ s] := by
  induction s with
  | nil => intro acc; simp [querySplitGo]
  | cons c rest ih =>
    intro acc
    have hrest : '=' ∉ rest := fun hx => h (List.mem_cons_of_mem c hx)
    by_cases hc : c = '&'
    · subst hc
      rw [querySplitGo_amp_none rest acc (queryPairMatch_none_no_eq rest hrest), ih hrest]
      simp
    · rw [querySplitGo_cons_ne c hc, ih hrest]
      simp

theorem queryStemsSplit_no_eq (s : Text) (h : '=' ∉ s) : queryStemsSplit s = [s] := by
  rw [queryStemsSplit_eq_none s (queryPairMatch_none_no_eq s h), querySplitGo_no_eq s h]
  simp

theorem uri_recode_query_no_eq (s : Text) (h : '=' ∉ s) :
    uri_recode_query s = uri_recode s [] := by
  simp only [uri_recode_query]
  rw [queryStemsSplit_no_eq s h]
  rfl

theorem pyUnquote_ne_nil (s : Text) (h : s ≠ []) : pyUnquote s ≠ [] := by
  match s, h with
  | c :: rest, _ =>
    show pyUnquoteGo (c :: rest) 0 ≠ []
    by_cases hc : c = '%'
    · subst hc
      rcases hhp : hexPair rest with _ | d
      · rw [show pyUnquoteGo ('%' :: rest) 0 = '%' :: pyUnquoteGo rest 0 from by
          simp [pyUnquoteGo, hhp]]
        simp
      · rw [pyUnquoteGo_percent rest d hhp]
        simp
    · rw [pyUnquoteGo_cons_ne c hc]
      simp

theorem quoteChar_ne_nil (safe : Text) (c : Char) : quoteChar safe c ≠ [] := by
  unfold quoteChar
  split_ifs <;> simp

theorem pyQuote_ne_nil (s safe : Text) (h : s ≠ []) : pyQuote s safe ≠ [] := by
  match s, h with
  | c :: rest, _ =>
    have : pyQuote (c :: rest) safe = quoteChar safe c ++ pyQuote rest safe := by
      simp [pyQuote]
    rw [this]
    simp [quoteChar_ne_nil safe c]

theorem uri_recode_ne_nil (t safe : Text) (h : t ≠ []) : uri_recode t safe ≠ [] :=
  pyQuote_ne_nil _ _ (pyUnquote_ne_nil t h)

/-- Idempotence of query-aware recode on byte strings. -/
theorem uri_recode_query_idem (q : Text) (hb : ByteText q) :
    uri_recode_query (uri_recode_query q) = uri_recode_query q := by
  obtain ⟨p0, blocks, hsplit, hok⟩ := queryStemsSplit_shape q
  by_cases hbs : blocks = []
  · subst hbs
    have hq1 : uri_recode_query q = uri_recode q [] := by
      simp only [uri_recode_query]
      rw [hsplit]
      rw [if_pos (by simp [qBlockElems])]
    rw [hq1]
    have hnoeq : '=' ∉ uri_recode q [] :=
      pyQuote_no_char _ _ '=' (by decide) (by simp) (by decide) (by decide)
    rw [uri_recode_query_no_eq _ hnoeq]
    exact uri_recode_recode q [] hb (by simp)
  · have hq1 : uri_recode_query q =
        renderQuery (blocks.map (fun b => (uri_recode b.1 [], uri_recode b.2.1 []))) := by
      rw [uri_recode_query_eq_blocks q p0 blocks hsplit hbs]
      unfold renderQuery
      rw [List.map_map]
      rfl
    have hok2 : QueryPairsOK (blocks.map (fun b => (uri_recode b.1 [], uri_recode b.2.1 []))) := by
      intro kv hkv
      obtain ⟨b, hbmem, rfl⟩ := List.mem_map.mp hkv
      obtain ⟨h1, _, h3, _, _, _⟩ := hok b hbmem
      exact ⟨uri_recode_ne_nil _ _ h1,
        pyQuote_no_char _ _ '=' (by decide) (by simp) (by decide) (by decide),
        pyQuote_no_char _ _ '&' (by decide) (by simp) (by decide) (by decide),
        uri_recode_ne_nil _ _ h3,
        pyQuote_no_char _ _ '&' (by decide) (by simp) (by decide) (by decide)⟩
    have hne2 : blocks.map (fun b => (uri_recode b.1 [], uri_recode b.2.1 [])) ≠ [] := by
      simpa using hbs
    rw [hq1]
    rw [uri_recode_query_eq_blocks _ []
      ((blocks.map (fun b => (uri_recode b.1 [], uri_recode b.2.1 []))).map
        (fun kv => (kv.1, kv.2, ([] : Text))))
      (queryStemsSplit_render _ hok2 hne2) (by simpa using hbs)]
    unfold renderQuery
    simp only [List.map_map]
    apply congrArg
    apply List.map_congr_left
    intro b hbmem
    obtain ⟨_, _, _, _, hsub1, hsub2⟩ := hok b hbmem
    have hbk : ByteText b.1 := fun x hx => hb x (hsub1 hx)
    have hbv : ByteText b.2.1 := fun x hx => hb x (hsub2 hx)
    simp only [Function.comp_apply]
    rw [uri_recode_recode b.1 [] hbk (by simp), uri_recode_recode b.2.1 [] hbv (by simp)]

/-
  Machinery: the host trailing slash strip at stem level.
-/

theorem pyInStr_intro (pat u1 u2 : Text) : pyInStr pat (u1 ++ pat ++ u2) = true := by
  induction u1 with
  | nil =>
    match pat with
    | [] =>
      cases u2 with
      | nil => simp [pyInStr]
      | cons x r => simp [pyInStr, List.isPrefixOf]
    | c :: p2 =>
      show pyInStr (c :: p2) (c :: (p2 ++ u2)) = true
      unfold pyInStr
      simp [List.isPrefixOf_iff_prefix]
  | cons c u1 ih =>
    show pyInStr pat (c :: (u1 ++ pat ++ u2)) = true
    unfold pyInStr
    rw [ih]
    simp

theorem pyInStr_elim (pat t : Text) (h : pyInStr pat t = true) :
    ∃ u1 u2, t = u1 ++ pat ++ u2 := by
  induction t with
  | nil =>
    refine ⟨[], [], ?_⟩
    unfold pyInStr at h
    simp only [List.isEmpty_iff] at h
    simp [h]
  | cons c rest ih =>
    unfold pyInStr at h
    rcases (by simpa using h :
        pat.isPrefixOf (c :: rest) = true ∨ pyInStr pat rest = true) with h1 | h1
    · obtain ⟨u2, hu2⟩ := List.isPrefixOf_iff_prefix.mp h1
      exact ⟨[], u2, by simp [← hu2]⟩
    · obtain ⟨u1, u2, hu⟩ := ih h1
      exact ⟨c :: u1, u2, by simp [hu]⟩

theorem pyJoin_append_last (sep : Text) (xs : List Text) (y : Text) (hne : xs ≠ []) :
    pyJoin sep (xs ++ [y]) = pyJoin sep xs ++ sep ++ y := by
  induction xs with
  | nil => exact absurd rfl hne
  | cons x r ih =>
    rcases r with _ | ⟨x2, r2⟩
    · simp [pyJoin]
    · have h1 : pyJoin sep ((x :: x2 :: r2) ++ [y]) =
          x ++ sep ++ pyJoin sep ((x2 :: r2) ++ [y]) := by
        simp [pyJoin]
      rw [h1, ih (by simp)]
      simp [pyJoin]

theorem hostSlashMatch_build (w rest : Text) (hw : '|' ∉ w)
    (hr : rest = "|p:|".toList ∨ rest = "|p:".toList) :
    hostSlashMatch ('h' :: ':' :: (w ++ rest)) = some ('h' :: ':' :: w) := by
  have hwall : ∀ x ∈ w, (fun c => decide (c ≠ '|')) x = true := by
    intro x hx
    simp only [decide_eq_true_eq]
    intro hxe
    exact hw (hxe ▸ hx)
  show (if 'h' = 'h' ∧ ':' = ':' then
      if (w ++ rest).dropWhile (fun c => c ≠ '|') = "|p:".toList ∨
          (w ++ rest).dropWhile (fun c => c ≠ '|') = "|p:|".toList then
        some ('h' :: ':' :: (w ++ rest).takeWhile (fun c => c ≠ '|'))
      else none
    else none) = some ('h' :: ':' :: w)
  rw [if_pos ⟨rfl, rfl⟩]
  rw [takeWhile_append_all _ w _ hwall, dropWhile_append_all _ w _ hwall]
  rcases hr with rfl | rfl
  · have he : "|p:|".toList = '|' :: "p:|".toList := rfl
    rw [he, List.takeWhile_cons_of_neg (by simp), List.dropWhile_cons_of_neg (by simp), ← he]
    rw [if_pos (Or.inr rfl)]
    simp
  · have he : "|p:".toList = '|' :: "p:".toList := rfl
    rw [he, List.takeWhile_cons_of_neg (by simp), List.dropWhile_cons_of_neg (by simp), ← he]
    rw [if_pos (Or.inl rfl)]
    simp

theorem hostSlashMatch_some (t hw : Text) (h : hostSlashMatch t = some hw) :
    ∃ w, hw = 'h' :: ':' :: w ∧ '|' ∉ w ∧
      (t = hw ++ "|p:|".toList ∨ t = hw ++ "|p:".toList) := by
  match t with
  | [] => simp [hostSlashMatch] at h
  | [c] => simp [hostSlashMatch] at h
  | c1 :: c2 :: rest =>
    have hexp : hostSlashMatch (c1 :: c2 :: rest) =
        (if c1 = 'h' ∧ c2 = ':' then
          if rest.dropWhile (fun c => c ≠ '|') = "|p:".toList ∨
              rest.dropWhile (fun c => c ≠ '|') = "|p:|".toList then
            some ('h' :: ':' :: rest.takeWhile (fun c => c ≠ '|'))
          else none
        else none) := rfl
    rw [hexp] at h
    by_cases hc12 : c1 = 'h' ∧ c2 = ':'
    · rw [if_pos hc12] at h
      obtain ⟨rfl, rfl⟩ := hc12
      by_cases hcond : rest.dropWhile (fun c => c ≠ '|') = "|p:".toList ∨
          rest.dropWhile (fun c => c ≠ '|') = "|p:|".toList
      · rw [if_pos hcond] at h
        injection h with h2
        refine ⟨rest.takeWhile (fun c => c ≠ '|'), h2.symm, ?_, ?_⟩
        · intro hmem
          have := List.mem_takeWhile_imp hmem
          simp at this
        · have hrest : rest = rest.takeWhile (fun c => c ≠ '|') ++
              rest.dropWhile (fun c => c ≠ '|') := (List.takeWhile_append_dropWhile _ _).symm
          rcases hcond with hc | hc
          · refine Or.inr ?_
            rw [← h2]
            show 'h' :: ':' :: rest =
              ('h' :: ':' :: rest.takeWhile (fun c => c ≠ '|')) ++ "|p:".toList
            conv_lhs => rw [hrest]
            rw [hc]
            rfl
          · refine Or.inl ?_
            rw [← h2]
            show 'h' :: ':' :: rest =
              ('h' :: ':' :: rest.takeWhile (fun c => c ≠ '|')) ++ "|p:|".toList
            conv_lhs => rw [hrest]
            rw [hc]
            rfl
      · rw [if_neg hcond] at h
        cases h
    · rw [if_neg hc12] at h
      cases h

/-
  Machinery: the exception fold of lru_get_head, str.replace of a head
  occurring only as the literal prefix, the scheme group of lruFullPattern,
  and the stem filter of the standard-port strip.
-/

/-- The exception fold inside lru_get_head, abstracted over the start
value. -/
def headFold (lru : Text) (l : List Text) (acc : Text) : Text :=
  l.foldl (fun acc e => if e.isPrefixOf lru ∧ acc.length < e.length then e else acc) acc

theorem headFold_cons (lru e : Text) (l : List Text) (acc : Text) :
    headFold lru (e :: l) acc =
      headFold lru l (if e.isPrefixOf lru ∧ acc.length < e.length then e else acc) := rfl

theorem lru_get_head_eq_fold (lru : Text) (l : List Text) :
    lru_get_head lru l =
      (if headFold lru l [] ≠ [] then some (headFold lru l [])
       else if hostRunScan lru true = [] then none
       else some (add_trailing_pipe (hostRunScan lru true))) := rfl

theorem headFold_mem (lru : Text) (l : List Text) : ∀ acc,
    headFold lru l acc = acc ∨
      (headFold lru l acc ∈ l ∧ (headFold lru l acc).isPrefixOf lru = true) := by
  induction l with
  | nil => intro acc; exact Or.inl rfl
  | cons e t ih =>
    intro acc
    rw [headFold_cons]
    by_cases hc : e.isPrefixOf lru ∧ acc.length < e.length
    · rw [if_pos hc]
      rcases ih e with h1 | ⟨h1, h2⟩
      · exact Or.inr ⟨by rw [h1]; exact List.mem_cons_self e t, by rw [h1]; exact hc.1⟩
      · exact Or.inr ⟨List.mem_cons_of_mem e h1, h2⟩
    · rw [if_neg hc]
      rcases ih acc with h1 | ⟨h1, h2⟩
      · exact Or.inl h1
      · exact Or.inr ⟨List.mem_cons_of_mem e h1, h2⟩

theorem headFold_mono (lru : Text) (l : List Text) : ∀ acc,
    acc.length ≤ (headFold lru l acc).length := by
  induction l with
  | nil => intro acc; exact le_refl _
  | cons e t ih =>
    intro acc
    rw [headFold_cons]
    by_cases hc : e.isPrefixOf lru ∧ acc.length < e.length
    · rw [if_pos hc]
      exact le_trans (le_of_lt hc.2) (ih e)
    · rw [if_neg hc]
      exact ih acc

theorem headFold_best (lru : Text) (l : List Text) : ∀ acc, ∀ e ∈ l,
    e.isPrefixOf lru = true → e.length ≤ (headFold lru l acc).length := by
  induction l with
  | nil => intro acc e he; simp at he
  | cons e0 t ih =>
    intro acc e he hp
    rw [headFold_cons]
    rcases List.mem_cons.mp he with rfl | hmem
    · by_cases hc : e.isPrefixOf lru ∧ acc.length < e.length
      · rw [if_pos hc]
        exact headFold_mono lru t e
      · rw [if_neg hc]
        have hle : ¬ acc.length < e.length := fun hl => hc ⟨hp, hl⟩
        exact le_trans (Nat.le_of_not_lt hle) (headFold_mono lru t acc)
    · exact ih _ e hmem hp

theorem pyReplaceAllGo_skip (pat u rest : Text) :
    pyReplaceAllGo pat (u ++ rest) u.length = pyReplaceAllGo pat rest 0 := by
  induction u with
  | nil => rfl
  | cons c t ih =>
    show pyReplaceAllGo pat (t ++ rest) t.length = pyReplaceAllGo pat rest 0
    exact ih

theorem pyReplaceAllGo_no_occurrence (pat : Text) (s : Text) (h : pyInStr pat s = false) :
    pyReplaceAllGo pat s 0 = s := by
  induction s with
  | nil => rfl
  | cons c r ih =>
    have h2 : pat.isPrefixOf (c :: r) = false ∧ pyInStr pat r = false := by
      have he : pyInStr pat (c :: r) = (pat.isPrefixOf (c :: r) || pyInStr pat r) := rfl
      rw [he] at h
      exact ⟨by rcases Bool.or_eq_false_iff.mp h with ⟨ha, _⟩; exact ha,
             by rcases Bool.or_eq_false_iff.mp h with ⟨_, hb⟩; exact hb⟩
    show (if pat ≠ [] ∧ pat.isPrefixOf (c :: r) then pyReplaceAllGo pat r (pat.length - 1)
      else c :: pyReplaceAllGo pat r 0) = c :: r
    rw [if_neg (fun hc => by rw [h2.1] at hc; exact Bool.false_ne_true hc.2), ih h2.2]

/-- str.replace of a nonempty head that occurs nowhere in the remainder:
only the leading occurrence is removed. -/
theorem pyReplaceAll_unique_head (head rest : Text) (hne : head ≠ [])
    (hno : pyInStr head rest = false) :
    pyReplaceAll (head ++ rest) head = rest := by
  match head, hne with
  | c :: p, _ =>
    show (if (c :: p) ≠ [] ∧ (c :: p).isPrefixOf (c :: (p ++ rest)) then
        pyReplaceAllGo (c :: p) (p ++ rest) ((c :: p).length - 1)
      else c :: pyReplaceAllGo (c :: p) (p ++ rest) 0) = rest
    rw [if_pos ⟨by simp, by simp [List.isPrefixOf_iff_prefix]⟩]
    have hlen : (c :: p).length - 1 = p.length := by simp
    rw [hlen, pyReplaceAllGo_skip (c :: p) p rest]
    exact pyReplaceAllGo_no_occurrence (c :: p) rest hno

/-- Inversion of lruFullPattern: a successful match always captures the
maximal delimiter-free leading run as the scheme. -/
theorem urlParse_scheme (u : Text) (g : UrlGroups) (h : urlParse u = some g) :
    g.scheme = u.takeWhile (fun c => ¬ isUrlDelim c) := by
  simp only [urlParse] at h
  repeat' split at h
  all_goals cases h
  all_goals rfl

theorem strip_filter_triple (stems : List Stem) :
    ((stems.map stemTriple).filter
        (fun st => ¬ (st.2.2 = "t:80".toList ∨ st.2.2 = "t:443".toList))).map
      (fun st => st.2.2) =
    (stems.filter
        (fun st => ¬ (stemText st = "t:80".toList ∨ stemText st = "t:443".toList))).map
      stemText := by
  induction stems with
  | nil => rfl
  | cons st r ih =>
    have he : (stemTriple st).2.2 = stemText st := rfl
    by_cases hc : stemText st = "t:80".toList ∨ stemText st = "t:443".toList
    · simp only [List.map_cons, List.filter_cons, he, hc]
      simpa using ih
    · simp only [List.map_cons, List.filter_cons, he, hc]
      rw [if_pos (by simp), if_pos (by simp)]
      simp only [List.map_cons, he]
      rw [ih]

/-
  Machinery: the stem-level mirror of the four passes of lru_clean.
-/

/-- The standard-port strip at stem level. -/
def portFilter (stems : List Stem) : List Stem :=
  stems.filter (fun st => ¬ (stemText st = "t:80".toList ∨ stemText st = "t:443".toList))

/-- The host lowercasing at stem level. -/
def lowerStem (st : Stem) : Stem :=
  if st.1 = 's' ∨ st.1 = 'h' then (st.1, pyLower st.2) else st

def lowerStems (stems : List Stem) : List Stem := stems.map lowerStem

/-- The host-trailing-slash strip at stem level: the final empty path stem
is removed when the stem before it reaches the end anchor through an h:
run, either as a host stem or through an h: occurrence inside its value. -/
def stripSlashStems (stems : List Stem) : List Stem :=
  match stems.reverse with
  | lastSt :: st :: rinit =>
    if lastSt = ('p', ([] : Text)) ∧ (st.1 = 'h' ∨ pyInStr "h:".toList st.2 = true) then
      (st :: rinit).reverse
    else stems
  | _ => stems

/-- The uri-encoding pass at stem level. -/
def encodeStem (st : Stem) : Stem :=
  if st.1 = 'p' ∨ st.1 = 'q' ∨ st.1 = 'f' then
    (st.1, if st.1 = 'q' then uri_recode_query st.2
           else uri_recode st.2 (if st.1 = 'p' then "/+".toList else []))
  else st

/-- The whole pipeline of lru_clean at stem level. -/
def cleanStems (stems : List Stem) : List Stem :=
  (stripSlashStems (lowerStems (portFilter stems))).map encodeStem

theorem pyLowerChar_idem (c : Char) : pyLowerChar (pyLowerChar c) = pyLowerChar c := by
  unfold pyLowerChar
  by_cases h : 'A' ≤ c ∧ c ≤ 'Z'
  · rw [if_pos h]
    have ha : 65 ≤ c.toNat := h.1
    have hb : c.toNat ≤ 90 := h.2
    have ht : (Char.ofNat (c.toNat + 32)).toNat = c.toNat + 32 :=
      toNat_ofNat_byte _ (by omega)
    rw [if_neg ?_]
    intro hcon
    have hz : (Char.ofNat (c.toNat + 32)).toNat ≤ 90 := hcon.2
    omega
  · rw [if_neg h, if_neg h]

theorem pyLower_idem (s : Text) : pyLower (pyLower s) = pyLower s := by
  unfold pyLower
  rw [List.map_map]
  apply List.map_congr_left
  intro c _
  exact pyLowerChar_idem c

theorem pyLowerChar_pipe (c : Char) (h : pyLowerChar c = '|') : c = '|' := by
  unfold pyLowerChar at h
  by_cases hc : 'A' ≤ c ∧ c ≤ 'Z'
  · rw [if_pos hc] at h
    have ha : 65 ≤ c.toNat := hc.1
    have hb : c.toNat ≤ 90 := hc.2
    have ht : (Char.ofNat (c.toNat + 32)).toNat = c.toNat + 32 :=
      toNat_ofNat_byte _ (by omega)
    have : (Char.ofNat (c.toNat + 32)).toNat = '|'.toNat := by rw [h]
    rw [ht] at this
    have : c.toNat = 92 := by
      have he : '|'.toNat = 124 := rfl
      omega
    omega
  · rwa [if_neg hc] at h

theorem pyLower_no_pipe (s : Text) (h : '|' ∉ s) : '|' ∉ pyLower s := by
  intro hmem
  obtain ⟨c, hc, hceq⟩ := List.mem_map.mp hmem
  exact h ((pyLowerChar_pipe c hceq) ▸ hc)

theorem pyLowerChar_byte (c : Char) (h : c.toNat < 256) : (pyLowerChar c).toNat < 256 := by
  unfold pyLowerChar
  by_cases hc : 'A' ≤ c ∧ c ≤ 'Z'
  · rw [if_pos hc]
    have hb : c.toNat ≤ 90 := hc.2
    have ht : (Char.ofNat (c.toNat + 32)).toNat = c.toNat + 32 :=
      toNat_ofNat_byte _ (by omega)
    omega
  · rwa [if_neg hc]

theorem pyLower_byte (s : Text) (h : ByteText s) : ByteText (pyLower s) := by
  intro x hx
  obtain ⟨c, hc, hceq⟩ := List.mem_map.mp hx
  exact hceq ▸ pyLowerChar_byte c (h c hc)

theorem special_hosts_match_lower (s : Text) :
    special_hosts_match (pyLower s) = special_hosts_match s := by
  simp only [special_hosts_match]
  rw [pyLower_idem]

theorem add_trailing_pipe_getLast (t : Text) :
    (add_trailing_pipe t).getLast? = some '|' := by
  unfold add_trailing_pipe
  by_cases h : t.getLast? = some '|'
  · rwa [if_pos h]
  · rw [if_neg h]
    exact List.getLast?_concat t

theorem add_trailing_pipe_idem (t : Text) :
    add_trailing_pipe (add_trailing_pipe t) = add_trailing_pipe t := by
  show (if (add_trailing_pipe t).getLast? = some '|' then _ else _) = _
  rw [if_pos (add_trailing_pipe_getLast t)]

theorem stemText_no_pipe (st : Stem) (ht : isStemType st.1 = true) (hv : '|' ∉ st.2) :
    '|' ∉ stemText st := by
  intro hmem
  unfold stemText at hmem
  rcases List.mem_cons.mp hmem with h1 | hmem2
  · rw [← h1] at ht
    exact absurd ht (by decide)
  · rcases List.mem_cons.mp hmem2 with h2 | h3
    · exact absurd h2 (by decide)
    · exact hv h3

/-- Splitting at a pipe with a pipe-free left part is unambiguous. -/
theorem pipe_seg_left (A B C D : Text) (hA : '|' ∉ A) (hC : '|' ∉ C)
    (h : A ++ '|' :: B = C ++ '|' :: D) : A = C ∧ B = D := by
  induction A generalizing C with
  | nil =>
    rcases C with _ | ⟨c, C2⟩
    · simpa using h
    · exfalso
      have hhead : '|' = c := by
        have := congrArg (fun l : Text => l.headD ' ') h
        simpa using this
      exact hC (by rw [← hhead]; exact List.mem_cons_self _ _)
  | cons a A2 ih =>
    rcases C with _ | ⟨c, C2⟩
    · exfalso
      have hhead : a = '|' := by
        have := congrArg (fun l : Text => l.headD ' ') h
        simpa using this
      subst hhead
      exact hA (List.mem_cons_self _ _)
    · have hh : a = c ∧ A2 ++ '|' :: B = C2 ++ '|' :: D := by
        simpa using h
      obtain ⟨h1, h2⟩ := ih C2 (fun hx => hA (List.mem_cons_of_mem a hx))
        (fun hx => hC (List.mem_cons_of_mem c hx)) hh.2
      exact ⟨by rw [hh.1, h1], h2⟩

/-- Splitting at a pipe with a pipe-free right part is unambiguous. -/
theorem pipe_seg_right (A B C D : Text) (hB : '|' ∉ B) (hD : '|' ∉ D)
    (h : A ++ '|' :: B = C ++ '|' :: D) : A = C ∧ B = D := by
  have hrev : B.reverse ++ '|' :: A.reverse = D.reverse ++ '|' :: C.reverse := by
    have h2 := congrArg List.reverse h
    simpa [List.reverse_append] using h2
  obtain ⟨h1, h2⟩ := pipe_seg_left _ _ _ _ (by simpa using hB) (by simpa using hD) hrev
  exact ⟨List.reverse_inj.mp h2, List.reverse_inj.mp h1⟩

/-- Inside a rendered stem join, a trailing h: run with a pipe-free tail
sits inside the text of the last stem: that stem is a host stem or holds an
h: occurrence in its value. -/
theorem join_tail_hocc (init : List Stem) (hclean : StemsClean init) (hne : init ≠ [])
    (u1 w : Text) (hw : '|' ∉ w)
    (hu : pyJoin ['|'] (init.map stemText) = u1 ++ 'h' :: ':' :: w) :
    ∃ pre st, init = pre ++ [st] ∧ (st.1 = 'h' ∨ pyInStr "h:".toList st.2 = true) := by
  obtain ⟨pre, st, rfl⟩ : ∃ pre st, init = pre ++ [st] := by
    rcases List.eq_nil_or_concat init with h0 | ⟨pre, st, h0⟩
    · exact absurd h0 hne
    · exact ⟨pre, st, by simpa [List.concat_eq_append] using h0⟩
  have hst := hclean st (by simp)
  refine ⟨pre, st, rfl, ?_⟩
  have hstpipe : '|' ∉ stemText st := stemText_no_pipe st hst.1 hst.2
  have hstrev : ∀ x ∈ (stemText st).reverse, (fun c => decide (c ≠ '|')) x = true := by
    intro x hx
    simp only [decide_eq_true_eq]
    intro hxe
    exact hstpipe (hxe ▸ (List.mem_reverse.mp hx))
  have hP : ((pyJoin ['|'] ((pre ++ [st]).map stemText)).reverse).takeWhile
      (fun c => c ≠ '|') = (stemText st).reverse := by
    rcases hpre : pre with _ | ⟨p0, pre2⟩
    · have hJ : pyJoin ['|'] (([] ++ [st]).map stemText) = stemText st := by
        simp [pyJoin]
      rw [hJ]
      rw [← List.append_nil ((stemText st).reverse)]
      rw [takeWhile_append_all _ _ _ (by
        intro x hx
        exact hstrev x (by simpa using hx))]
      simp
    · have hJ : pyJoin ['|'] (((p0 :: pre2) ++ [st]).map stemText) =
          pyJoin ['|'] ((p0 :: pre2).map stemText) ++ ['|'] ++ stemText st := by
        rw [List.map_append]
        rw [show List.map stemText [st] = [stemText st] from rfl]
        rw [pyJoin_append_last _ _ _ (by simp)]
      rw [hJ]
      rw [show pyJoin ['|'] ((p0 :: pre2).map stemText) ++ ['|'] ++ stemText st =
        pyJoin ['|'] ((p0 :: pre2).map stemText) ++ ('|' :: stemText st) from by simp]
      rw [List.reverse_append]
      rw [show ('|' :: stemText st).reverse = (stemText st).reverse ++ ['|'] from by simp]
      rw [List.append_assoc]
      rw [takeWhile_append_all _ _ _ hstrev]
      rw [show (['|'] : Text) ++ (pyJoin ['|'] ((p0 :: pre2).map stemText)).reverse =
        '|' :: (pyJoin ['|'] ((p0 :: pre2).map stemText)).reverse from rfl]
      rw [List.takeWhile_cons_of_neg (by simp)]
      simp
  have hwrev : ∀ x ∈ w.reverse, (fun c => decide (c ≠ '|')) x = true := by
    intro x hx
    simp only [decide_eq_true_eq]
    intro hxe
    exact hw (hxe ▸ (List.mem_reverse.mp hx))
  have hR : ((u1 ++ 'h' :: ':' :: w).reverse).takeWhile (fun c => c ≠ '|') =
      w.reverse ++ ':' :: 'h' :: (u1.reverse.takeWhile (fun c => c ≠ '|')) := by
    rw [show (u1 ++ 'h' :: ':' :: w).reverse = w.reverse ++ ':' :: 'h' :: u1.reverse from by
      simp [List.reverse_append]]
    rw [takeWhile_append_all _ _ _ hwrev]
    rw [List.takeWhile_cons_of_pos (by simp), List.takeWhile_cons_of_pos (by simp)]
  have hE : (stemText st).reverse =
      w.reverse ++ ':' :: 'h' :: (u1.reverse.takeWhile (fun c => c ≠ '|')) := by
    rw [← hP, hu, hR]
  have hE2 : stemText st =
      (u1.reverse.takeWhile (fun c => c ≠ '|')).reverse ++ 'h' :: ':' :: w := by
    have h2 := congrArg List.reverse hE
    simpa [List.reverse_append] using h2
  rcases hQ : (u1.reverse.takeWhile (fun c => c ≠ '|')).reverse with _ | ⟨q1, Q1⟩
  · rw [hQ] at hE2
    have : st.1 = 'h' := by
      have := congrArg (fun l : Text => l.headD ' ') hE2
      simpa [stemText] using this
    exact Or.inl this
  · rcases Q1 with _ | ⟨q2, Q2⟩
    · rw [hQ] at hE2
      exfalso
      have : st.1 = q1 ∧ ':' = 'h' ∧ st.2 = ':' :: w := by
        simpa [stemText] using hE2
      exact absurd this.2.1 (by decide)
    · rw [hQ] at hE2
      have hparts : st.1 = q1 ∧ ':' = q2 ∧ st.2 = Q2 ++ 'h' :: ':' :: w := by
        simpa [stemText] using hE2
      refine Or.inr ?_
      rw [hparts.2.2]
      have hp := pyInStr_intro "h:".toList Q2 w
      simpa using hp

/-- A rendered LRU ending in an h: run and an empty path stem does so only
through a final empty path stem preceded by a stem reaching the end anchor
with an h: run. -/
theorem render_pPipe_inv (stems : List Stem) (hclean : StemsClean stems) (hne : stems ≠ [])
    (u1 w : Text) (hw : '|' ∉ w)
    (heq : renderLru stems = (u1 ++ 'h' :: ':' :: w) ++ "|p:|".toList) :
    ∃ pre st, stems = pre ++ [st, ('p', ([] : Text))] ∧
      (st.1 = 'h' ∨ pyInStr "h:".toList st.2 = true) := by
  obtain ⟨init0, last, rfl⟩ : ∃ i l, stems = i ++ [l] := by
    rcases List.eq_nil_or_concat stems with h0 | ⟨i, l, h0⟩
    · exact absurd h0 hne
    · exact ⟨i, l, by simpa [List.concat_eq_append] using h0⟩
  have hlast := hclean last (by simp)
  rw [renderLru_eq _ hclean hne] at heq
  have hre : (u1 ++ 'h' :: ':' :: w) ++ "|p:|".toList =
      ((u1 ++ 'h' :: ':' :: w) ++ '|' :: "p:".toList) ++ ['|'] := by simp
  rw [hre] at heq
  have hJ : pyJoin ['|'] ((init0 ++ [last]).map stemText) =
      (u1 ++ 'h' :: ':' :: w) ++ '|' :: "p:".toList := by
    have h2 := congrArg List.reverse heq
    simp only [List.reverse_append, List.reverse_cons, List.reverse_nil,
      List.nil_append, List.cons_append, List.singleton_append] at h2
    have h3 : (pyJoin ['|'] ((init0 ++ [last]).map stemText)).reverse =
        ((u1 ++ 'h' :: ':' :: w) ++ '|' :: "p:".toList).reverse := by
      have h4 := congrArg List.tail h2
      simpa using h4
    have h5 := congrArg List.reverse h3
    simpa using h5
  rcases hi : init0 with _ | ⟨i0, init1⟩
  · exfalso
    subst hi
    have hJ2 : stemText last = (u1 ++ 'h' :: ':' :: w) ++ '|' :: "p:".toList := by
      simpa [pyJoin] using hJ
    have hpipe : '|' ∉ stemText last := stemText_no_pipe last hlast.1 hlast.2
    apply hpipe
    rw [hJ2]
    exact List.mem_append.mpr (Or.inr (List.mem_cons_self _ _))
  · have hinit_ne : init0 ≠ [] := by rw [hi]; simp
    have hJ3 : pyJoin ['|'] (init0.map stemText) ++ '|' :: stemText last =
        (u1 ++ 'h' :: ':' :: w) ++ '|' :: "p:".toList := by
      have hmne : List.map stemText init0 ≠ [] := by rw [hi]; simp
      rw [← hJ, List.map_append]
      rw [show List.map stemText [last] = [stemText last] from rfl]
      rw [pyJoin_append_last _ _ _ hmne]
      simp
    have hlastpipe : '|' ∉ stemText last := stemText_no_pipe last hlast.1 hlast.2
    obtain ⟨hA, hB⟩ := pipe_seg_right _ _ _ _ hlastpipe (by decide) hJ3
    have hlst : last = ('p', ([] : Text)) := by
      rcases last with ⟨a, b⟩
      have hx : a = 'p' ∧ b = ([] : Text) := by
        simpa [stemText] using hB
      rw [hx.1, hx.2]
    obtain ⟨pre, st, hps, hcond⟩ := join_tail_hocc init0
      (fun x hx => hclean x (List.mem_append.mpr (Or.inl hx))) hinit_ne u1 w hw hA
    refine ⟨pre, st, ?_, hcond⟩
    rw [← hi, hps, hlst]
    simp

theorem strip_cons_none (c : Char) (rest : Text) (h : hostSlashMatch (c :: rest) = none) :
    lru_strip_host_trailing_slash (c :: rest) = c :: lru_strip_host_trailing_slash rest := by
  conv_lhs => unfold lru_strip_host_trailing_slash
  rw [h]

theorem strip_cons_some (c : Char) (rest hw : Text)
    (h : hostSlashMatch (c :: rest) = some hw) :
    lru_strip_host_trailing_slash (c :: rest) = hw := by
  conv_lhs => unfold lru_strip_host_trailing_slash
  rw [h]

/-- The re.sub scan of lru_strip_host_trailing_slash when no position
matches. -/
theorem strip_slash_nofire (t : Text)
    (h : ∀ u v : Text, t = u ++ v → hostSlashMatch v = none) :
    lru_strip_host_trailing_slash t = t := by
  induction t with
  | nil => rfl
  | cons c rest ih =>
    rw [strip_cons_none c rest (h [] (c :: rest) rfl),
      ih (fun u v hv => h (c :: u) v (by rw [hv]; rfl))]

/-- The re.sub scan when the text ends with an h: run and the empty path
stem: whatever position fires first, the kept group is everything before
the final pipe, path marker and pipe. -/
theorem strip_slash_fire (u1 w : Text) (hw : '|' ∉ w) :
    lru_strip_host_trailing_slash ((u1 ++ 'h' :: ':' :: w) ++ "|p:|".toList) =
      u1 ++ 'h' :: ':' :: w := by
  induction u1 with
  | nil =>
    have hm := hostSlashMatch_build w "|p:|".toList hw (Or.inl rfl)
    have he : (([] : Text) ++ 'h' :: ':' :: w) ++ "|p:|".toList =
        'h' :: ':' :: (w ++ "|p:|".toList) := by simp
    rw [he, strip_cons_some _ _ _ hm]
    simp
  | cons c u1' ih =>
    have he : ((c :: u1') ++ 'h' :: ':' :: w) ++ "|p:|".toList =
        c :: ((u1' ++ 'h' :: ':' :: w) ++ "|p:|".toList) := by simp
    rw [he]
    rcases hm : hostSlashMatch (c :: ((u1' ++ 'h' :: ':' :: w) ++ "|p:|".toList)) with _ | hw2
    · rw [strip_cons_none _ _ hm, ih]
      simp
    · obtain ⟨w2, hw2eq, hw2p, hcase⟩ := hostSlashMatch_some _ _ hm
      have hred : lru_strip_host_trailing_slash
          (c :: ((u1' ++ 'h' :: ':' :: w) ++ "|p:|".toList)) = hw2 :=
        strip_cons_some _ _ _ hm
      rcases hcase with hc1 | hc2
      · have hceq : (c :: (u1' ++ 'h' :: ':' :: w)) ++ "|p:|".toList =
            hw2 ++ "|p:|".toList := by
          rw [← hc1]
          simp
        have hww : c :: (u1' ++ 'h' :: ':' :: w) = hw2 := List.append_cancel_right hceq
        rw [hred, ← hww]
        simp
      · exfalso
        have hl1 : (c :: ((u1' ++ 'h' :: ':' :: w) ++ "|p:|".toList)).getLast? = some '|' := by
          rw [show c :: ((u1' ++ 'h' :: ':' :: w) ++ "|p:|".toList) =
            (c :: ((u1' ++ 'h' :: ':' :: w) ++ "|p:".toList)) ++ ['|'] from by
              rw [show ("|p:|".toList : Text) = "|p:".toList ++ ['|'] from rfl]
              simp]
          exact List.getLast?_concat _
        rw [hc2] at hl1
        rw [show hw2 ++ "|p:".toList = (hw2 ++ "|p".toList) ++ [':'] from by
          rw [show ("|p:".toList : Text) = "|p".toList ++ [':'] from rfl]
          simp] at hl1
        rw [List.getLast?_concat] at hl1
        simp at hl1

/-- A rendered join whose last stem reaches the end anchor through an h:
run decomposes as required by the fire lemma. -/
theorem join_hocc_build (pre : List Stem) (st : Stem)
    (hcond : st.1 = 'h' ∨ pyInStr "h:".toList st.2 = true) (hpipe : '|' ∉ st.2) :
    ∃ u1 w, pyJoin ['|'] ((pre ++ [st]).map stemText) = u1 ++ 'h' :: ':' :: w ∧ '|' ∉ w := by
  obtain ⟨P, hP⟩ : ∃ P, pyJoin ['|'] ((pre ++ [st]).map stemText) = P ++ stemText st := by
    rcases hpre : pre with _ | ⟨p0, pre2⟩
    · exact ⟨[], by simp [pyJoin]⟩
    · refine ⟨pyJoin ['|'] ((p0 :: pre2).map stemText) ++ ['|'], ?_⟩
      rw [List.map_append]
      rw [show List.map stemText [st] = [stemText st] from rfl]
      rw [pyJoin_append_last _ _ _ (by simp)]
  rcases hcond with hh | hocc
  · refine ⟨P, st.2, ?_, hpipe⟩
    rw [hP]
    have : stemText st = 'h' :: ':' :: st.2 := by
      unfold stemText
      rw [hh]
    rw [this]
  · obtain ⟨a, b, hab⟩ := pyInStr_elim _ _ hocc
    refine ⟨P ++ st.1 :: ':' :: a, b, ?_, ?_⟩
    · rw [hP]
      have : stemText st = (st.1 :: ':' :: a) ++ 'h' :: ':' :: b := by
        unfold stemText
        rw [hab]
        simp
      rw [this]
      simp
    · intro hmem
      apply hpipe
      rw [hab]
      simp [hmem]

theorem stripSlashStems_clean (stems : List Stem) (h : StemsClean stems) :
    StemsClean (stripSlashStems stems) := by
  intro x hx
  apply h
  unfold stripSlashStems at hx
  split at hx
  · rename_i hall lastSt st rinit heq
    split at hx
    · have hx2 : x ∈ st :: rinit := List.mem_reverse.mp hx
      have hx3 : x ∈ lastSt :: st :: rinit := List.mem_cons_of_mem _ hx2
      rw [← heq] at hx3
      exact List.mem_reverse.mp hx3
    · exact hx
  · exact hx

theorem stripSlashStems_ne_nil (stems : List Stem) (hne : stems ≠ []) :
    stripSlashStems stems ≠ [] := by
  unfold stripSlashStems
  split
  · split
    · simp
    · exact hne
  · exact hne

/-- The host-trailing-slash pass on a rendered LRU, up to the trailing
pipe: it acts exactly as the stem-level strip. -/
theorem strip_render (stems : List Stem) (hclean : StemsClean stems) (hne : stems ≠ []) :
    pyRstrip (lru_strip_host_trailing_slash (renderLru stems)) '|' =
      pyJoin ['|'] ((stripSlashStems stems).map stemText) := by
  rcases hrev : stems.reverse with _ | ⟨lastSt, rest1⟩
  · exact absurd (by simpa using congrArg List.reverse hrev) hne
  rcases rest1 with _ | ⟨st, rinit⟩
  · -- a single stem: no fire possible
    have hstems : stems = [lastSt] := by
      have := congrArg List.reverse hrev
      simpa using this
    have hsss : stripSlashStems stems = stems := by
      unfold stripSlashStems
      rw [hrev]
    rw [hsss]
    have hnf : lru_strip_host_trailing_slash (renderLru stems) = renderLru stems := by
      apply strip_slash_nofire
      intro u v huv
      rcases hm : hostSlashMatch v with _ | hw2
      · rfl
      · exfalso
        obtain ⟨w2, hw2eq, hw2p, hcase⟩ := hostSlashMatch_some _ _ hm
        have hlastr : (renderLru stems).getLast? = some '|' := add_trailing_pipe_getLast _
        rcases hcase with hc1 | hc2
        · have hard : renderLru stems = (u ++ 'h' :: ':' :: w2) ++ "|p:|".toList := by
            rw [huv, hc1, hw2eq]
            simp
          obtain ⟨pre2, st2, hshape, _⟩ :=
            render_pPipe_inv stems hclean hne _ _ hw2p hard
          rw [hstems] at hshape
          have := congrArg List.length hshape
          simp at this
        · have hlast2 : v.getLast? = some '|' := by
            rcases hv : v with _ | ⟨v0, vr⟩
            · rw [hv] at hc2
              exact absurd hc2.symm (by simp)
            · have h4 : (u ++ v0 :: vr).getLast? = some '|' := by
                rw [← hv, ← huv]
                exact hlastr
              rwa [List.getLast?_append_of_ne_nil _ (by simp)] at h4
          rw [hc2, hw2eq] at hlast2
          rw [show ('h' :: ':' :: w2) ++ "|p:".toList =
            (('h' :: ':' :: w2) ++ "|p".toList) ++ [':'] from by
              rw [show ("|p:".toList : Text) = "|p".toList ++ [':'] from rfl]
              simp] at hlast2
          rw [List.getLast?_concat] at hlast2
          simp at hlast2
    rw [hnf, pyRstrip_renderLru stems hclean hne]
  · -- at least two stems
    have hstems : stems = rinit.reverse ++ [st, lastSt] := by
      have := congrArg List.reverse hrev
      simpa using this
    by_cases hcond : lastSt = ('p', ([] : Text)) ∧
        (st.1 = 'h' ∨ pyInStr "h:".toList st.2 = true)
    · -- fire
      have hstp : '|' ∉ st.2 := by
        have := hclean st (by rw [hstems]; simp)
        exact this.2
      obtain ⟨u1, w, hjoin, hw⟩ := join_hocc_build rinit.reverse st hcond.2 hstp
      have hsss : stripSlashStems stems = rinit.reverse ++ [st] := by
        unfold stripSlashStems
        rw [hrev]
        show (if lastSt = ('p', ([] : Text)) ∧ (st.1 = 'h' ∨ pyInStr "h:".toList st.2 = true)
          then (st :: rinit).reverse else stems) = rinit.reverse ++ [st]
        rw [if_pos hcond]
        simp
      have hrender : renderLru stems = (u1 ++ 'h' :: ':' :: w) ++ "|p:|".toList := by
        rw [hstems]
        have hcl2 : StemsClean (rinit.reverse ++ [st, lastSt]) := by
          rw [← hstems]; exact hclean
        rw [renderLru_eq _ hcl2 (by simp)]
        rw [show rinit.reverse ++ [st, lastSt] = (rinit.reverse ++ [st]) ++ [lastSt] from by simp]
        rw [List.map_append]
        rw [show List.map stemText [lastSt] = [stemText lastSt] from rfl]
        rw [pyJoin_append_last _ _ _ (by simp)]
        rw [hjoin, hcond.1]
        rw [show stemText ('p', ([] : Text)) = "p:".toList from rfl]
        rw [show ("|p:|".toList : Text) = ['|'] ++ "p:".toList ++ ['|'] from rfl]
        simp
      rw [hrender, strip_slash_fire u1 w hw, ← hjoin, hsss]
      rw [pyRstrip_no_pipe_end]
      exact pyJoin_stemText_getLast _ (by
        intro x hx
        exact hclean x (by rw [hstems]; revert hx; simp; tauto)) (by simp)
    · -- no fire
      have hsss : stripSlashStems stems = stems := by
        unfold stripSlashStems
        rw [hrev]
        show (if lastSt = ('p', ([] : Text)) ∧ (st.1 = 'h' ∨ pyInStr "h:".toList st.2 = true)
          then (st :: rinit).reverse else stems) = stems
        rw [if_neg hcond]
      rw [hsss]
      have hnf : lru_strip_host_trailing_slash (renderLru stems) = renderLru stems := by
        apply strip_slash_nofire
        intro u v huv
        rcases hm : hostSlashMatch v with _ | hw2
        · rfl
        · exfalso
          obtain ⟨w2, hw2eq, hw2p, hcase⟩ := hostSlashMatch_some _ _ hm
          have hlastr : (renderLru stems).getLast? = some '|' := add_trailing_pipe_getLast _
          rcases hcase with hc1 | hc2
          · have hard : renderLru stems = (u ++ 'h' :: ':' :: w2) ++ "|p:|".toList := by
              rw [huv, hc1, hw2eq]
              simp
            obtain ⟨pre2, st2, hshape, hcond2⟩ :=
              render_pPipe_inv stems hclean hne _ _ hw2p hard
            have hrev2 : stems.reverse = ('p', ([] : Text)) :: st2 :: pre2.reverse := by
              rw [hshape]
              simp
            rw [hrev] at hrev2
            have hl : lastSt = ('p', ([] : Text)) := by
              injection hrev2
            have hrest : st :: rinit = st2 :: pre2.reverse := by
              injection hrev2 with _ h2
            have hst2 : st = st2 := by
              injection hrest
            exact hcond ⟨hl, hst2 ▸ hcond2⟩
          · have hlast2 : v.getLast? = some '|' := by
              rcases hv : v with _ | ⟨v0, vr⟩
              · rw [hv] at hc2
                exact absurd hc2.symm (by simp)
              · have h4 : (u ++ v0 :: vr).getLast? = some '|' := by
                  rw [← hv, ← huv]
                  exact hlastr
                rwa [List.getLast?_append_of_ne_nil _ (by simp)] at h4
            rw [hc2, hw2eq] at hlast2
            rw [show ('h' :: ':' :: w2) ++ "|p:".toList =
              (('h' :: ':' :: w2) ++ "|p".toList) ++ [':'] from by
                rw [show ("|p:".toList : Text) = "|p".toList ++ [':'] from rfl]
                simp] at hlast2
            rw [List.getLast?_concat] at hlast2
            simp at hlast2
      rw [hnf, pyRstrip_renderLru stems hclean hne]

/-- Pass 1 of lru_clean on a rendered stem list. -/
theorem port_strip_render (stems : List Stem) (h : StemsClean stems) (hne : stems ≠ []) :
    lru_strip_standard_ports (renderLru stems) = some (renderLru (portFilter stems)) := by
  unfold lru_strip_standard_ports
  rw [split_lru_in_stems_render_false stems h hne]
  simp only [Option.map_some']
  unfold renderLru portFilter
  rw [strip_filter_triple]

/-- Pass 2 of lru_clean on a rendered stem list, success case. -/
theorem lowerize_render (stems : List Stem) (h : StemsClean stems) (hne : stems ≠ [])
    (hchk : splitCheckOK stems) :
    lru_lowerize_host (renderLru stems) = some (renderLru (lowerStems stems)) := by
  unfold lru_lowerize_host
  rw [split_lru_in_stems_render_true stems h hne hchk]
  simp only [Option.map_some']
  unfold renderLru
  apply congrArg some
  apply congrArg add_trailing_pipe
  apply congrArg (pyJoin ['|'])
  unfold lowerStems
  rw [List.map_map, List.map_map]
  apply List.map_congr_left
  intro st hst
  simp only [Function.comp_apply]
  by_cases hc : st.1 = 's' ∨ st.1 = 'h'
  · have hcond : (stemTriple st).1 = ['s'] ∨ (stemTriple st).1 = ['h'] := by
      rcases hc with h1 | h1
      · exact Or.inl (by simp [stemTriple, h1])
      · exact Or.inr (by simp [stemTriple, h1])
    rw [if_pos hcond]
    unfold lowerStem
    rw [if_pos hc]
    show pyLower (stemText st) = stemText (st.1, pyLower st.2)
    unfold stemText pyLower
    simp only [List.map_cons]
    rcases hc with h1 | h1 <;> rw [h1] <;> rfl
  · have hcond : ¬ ((stemTriple st).1 = ['s'] ∨ (stemTriple st).1 = ['h']) := by
      intro hcon
      apply hc
      rcases hcon with h1 | h1
      · exact Or.inl (by simpa [stemTriple] using h1)
      · exact Or.inr (by simpa [stemTriple] using h1)
    rw [if_neg hcond]
    unfold lowerStem
    rw [if_neg hc]
    rfl

/-- Pass 2 of lru_clean on a rendered stem list, failure case. -/
theorem lowerize_render_fail (stems : List Stem) (h : StemsClean stems) (hne : stems ≠ [])
    (hchk : ¬ splitCheckOK stems) :
    lru_lowerize_host (renderLru stems) = none := by
  unfold lru_lowerize_host
  rw [split_lru_in_stems_stems_true_fail _ stems h hne hchk (pyRstrip_renderLru stems h hne)]
  rfl

/-- Pass 4 of lru_clean on any text splitting into the given stems,
success case. -/
theorem uriencode_stems (t : Text) (stems : List Stem) (h : StemsClean stems)
    (hne : stems ≠ []) (hchk : splitCheckOK stems)
    (ht : pyRstrip t '|' = pyJoin ['|'] (stems.map stemText)) :
    lru_uriencode t = some (renderLru (stems.map encodeStem)) := by
  unfold lru_uriencode
  rw [split_lru_in_stems_stems_true t stems h hne hchk ht]
  simp only [Option.map_some']
  unfold renderLru
  apply congrArg some
  apply congrArg add_trailing_pipe
  apply congrArg (pyJoin ['|'])
  rw [List.map_map, List.map_map]
  apply List.map_congr_left
  intro st hst
  simp only [Function.comp_apply]
  by_cases hc : st.1 = 'p' ∨ st.1 = 'q' ∨ st.1 = 'f'
  · have hcond : (stemTriple st).1 = ['p'] ∨ (stemTriple st).1 = ['q'] ∨
        (stemTriple st).1 = ['f'] := by
      rcases hc with h1 | h1 | h1
      · exact Or.inl (by simp [stemTriple, h1])
      · exact Or.inr (Or.inl (by simp [stemTriple, h1]))
      · exact Or.inr (Or.inr (by simp [stemTriple, h1]))
    rw [if_pos hcond]
    unfold encodeStem
    rw [if_pos hc]
    rcases hc with h1 | h1 | h1 <;> simp [stemTriple, stemText, h1]
  · have hcond : ¬ ((stemTriple st).1 = ['p'] ∨ (stemTriple st).1 = ['q'] ∨
        (stemTriple st).1 = ['f']) := by
      intro hcon
      apply hc
      rcases hcon with h1 | h1 | h1
      · exact Or.inl (by simpa [stemTriple] using h1)
      · exact Or.inr (Or.inl (by simpa [stemTriple] using h1))
      · exact Or.inr (Or.inr (by simpa [stemTriple] using h1))
    rw [if_neg hcond]
    unfold encodeStem
    rw [if_neg hc]
    rfl

/-- Pass 4 of lru_clean, failure case. -/
theorem uriencode_stems_fail (t : Text) (stems : List Stem) (h : StemsClean stems)
    (hne : stems ≠ []) (hchk : ¬ splitCheckOK stems)
    (ht : pyRstrip t '|' = pyJoin ['|'] (stems.map stemText)) :
    lru_uriencode t = none := by
  unfold lru_uriencode
  rw [split_lru_in_stems_stems_true_fail t stems h hne hchk ht]
  rfl

theorem getD_map_stem (f : Stem → Stem) (hf : f ('x', ([] : Text)) = ('x', ([] : Text)))
    (u : List Stem) (i : Nat) :
    (u.map f).getD i ('x', ([] : Text)) = f (u.getD i ('x', ([] : Text))) := by
  rw [List.getD_eq_getElem?_getD, List.getD_eq_getElem?_getD, List.getElem?_map]
  rcases h : u[i]? with _ | a
  · simp [hf]
  · simp

theorem lowerStem_fst (st : Stem) : (lowerStem st).1 = st.1 := by
  unfold lowerStem
  split <;> rfl

theorem encodeStem_fst (st : Stem) : (encodeStem st).1 = st.1 := by
  unfold encodeStem
  split <;> rfl

theorem encodeStem_sth (st : Stem) (h : ¬ (st.1 = 'p' ∨ st.1 = 'q' ∨ st.1 = 'f')) :
    encodeStem st = st := by
  unfold encodeStem
  rw [if_neg h]

theorem lowerStem_not_sh (st : Stem) (h : ¬ (st.1 = 's' ∨ st.1 = 'h')) :
    lowerStem st = st := by
  unfold lowerStem
  rw [if_neg h]

/-- splitCheckOK transfers from a stem list to its encoded image when the
second stem is not of a recoded type. -/
theorem splitCheckOK_encode (u : List Stem)
    (htype : ¬ ((u.getD 1 ('x', ([] : Text))).1 = 'p' ∨
      (u.getD 1 ('x', ([] : Text))).1 = 'q' ∨ (u.getD 1 ('x', ([] : Text))).1 = 'f'))
    (h : splitCheckOK u) : splitCheckOK (u.map encodeStem) := by
  unfold splitCheckOK at h ⊢
  rw [List.length_map, getD_map_stem encodeStem rfl, getD_map_stem encodeStem rfl,
    getD_map_stem encodeStem rfl, encodeStem_fst, encodeStem_fst,
    encodeStem_sth _ htype]
  exact h

theorem pyJoin_mem (sep : Text) (l : List Text) (x : Char) (hx : x ∈ pyJoin sep l) :
    x ∈ sep ∨ ∃ t ∈ l, x ∈ t := by
  induction l with
  | nil => simp [pyJoin] at hx
  | cons a rest ih =>
    rcases rest with _ | ⟨b, r2⟩
    · exact Or.inr ⟨a, by simp, by simpa [pyJoin] using hx⟩
    · have hx2 : x ∈ a ++ sep ++ pyJoin sep (b :: r2) := by simpa [pyJoin] using hx
      rcases List.mem_append.mp hx2 with hx3 | hx3
      · rcases List.mem_append.mp hx3 with hx4 | hx4
        · exact Or.inr ⟨a, by simp, hx4⟩
        · exact Or.inl hx4
      · rcases ih hx3 with h1 | ⟨t, ht, hxt⟩
        · exact Or.inl h1
        · exact Or.inr ⟨t, by simp [ht], hxt⟩

theorem uri_recode_no_colon (v safe : Text) (hsafe : ':' ∉ safe) :
    ':' ∉ uri_recode v safe :=
  pyQuote_no_char _ _ ':' (by decide) hsafe (by decide) (by decide)

theorem uri_recode_no_pipe (v safe : Text) (hsafe : '|' ∉ safe) :
    '|' ∉ uri_recode v safe :=
  pyQuote_no_char _ _ '|' (by decide) hsafe (by decide) (by decide)

theorem uri_recode_query_no_char (q : Text) (x : Char) (hA : isAlwaysSafe x = false)
    (hp : x ≠ '%') (hh : x ∉ "0123456789ABCDEF".toList) (hamp : x ≠ '&') (heq : x ≠ '=') :
    x ∉ uri_recode_query q := by
  unfold uri_recode_query
  by_cases hlen : (queryStemsSplit q).length = 1
  · rw [if_pos hlen]
    exact pyQuote_no_char _ _ x hA (by simp) hp hh
  · rw [if_neg hlen]
    intro hmem
    rcases pyJoin_mem _ _ _ hmem with h1 | ⟨t, ht, hxt⟩
    · rcases List.mem_singleton.mp h1 with rfl
      exact hamp rfl
    · obtain ⟨i, _, rfl⟩ := List.mem_map.mp ht
      rcases List.mem_append.mp hxt with h2 | h2
      · exact pyQuote_no_char _ _ x hA (by simp) hp hh h2
      · rcases List.mem_cons.mp h2 with h3 | h3
        · exact heq h3
        · exact pyQuote_no_char _ _ x hA (by simp) hp hh h3

theorem uri_recode_query_no_colon (q : Text) : ':' ∉ uri_recode_query q :=
  uri_recode_query_no_char q ':' (by decide) (by decide) (by decide) (by decide) (by decide)

theorem uri_recode_query_no_pipe (q : Text) : '|' ∉ uri_recode_query q :=
  uri_recode_query_no_char q '|' (by decide) (by decide) (by decide) (by decide) (by decide)

theorem uri_recode_query_byte (q : Text) : ByteText (uri_recode_query q) := by
  unfold uri_recode_query
  by_cases hlen : (queryStemsSplit q).length = 1
  · rw [if_pos hlen]
    exact pyQuote_byte _ _ (by intro c hc; simp at hc)
  · rw [if_neg hlen]
    intro x hmem
    rcases pyJoin_mem _ _ _ hmem with h1 | ⟨t, ht, hxt⟩
    · rcases List.mem_singleton.mp h1 with rfl
      decide
    · obtain ⟨i, _, rfl⟩ := List.mem_map.mp ht
      rcases List.mem_append.mp hxt with h2 | h2
      · exact pyQuote_byte _ _ (by intro c hc; simp at hc) x h2
      · rcases List.mem_cons.mp h2 with h3 | h3
        · rw [h3]; decide
        · exact pyQuote_byte _ _ (by intro c hc; simp at hc) x h3

theorem pyInStr_hocc_colon (v : Text) (h : pyInStr "h:".toList v = true) : ':' ∈ v := by
  obtain ⟨a, b, hab⟩ := pyInStr_elim _ _ h
  rw [hab]
  rw [show ("h:".toList : Text) = ['h', ':'] from rfl]
  simp

/-- Pointwise idempotence of the encoding pass on byte values. -/
theorem encodeStem_idem (st : Stem) (hb : ByteText st.2) :
    encodeStem (encodeStem st) = encodeStem st := by
  rcases st with ⟨c, v⟩
  by_cases hp : c = 'p'
  · subst hp
    show encodeStem ('p', uri_recode v "/+".toList) = ('p', uri_recode v "/+".toList)
    show ('p', uri_recode (uri_recode v "/+".toList) "/+".toList) =
      ('p', uri_recode v "/+".toList)
    rw [uri_recode_recode v "/+".toList hb (by decide)]
  · by_cases hq : c = 'q'
    · subst hq
      show encodeStem ('q', uri_recode_query v) = ('q', uri_recode_query v)
      show ('q', uri_recode_query (uri_recode_query v)) = ('q', uri_recode_query v)
      rw [uri_recode_query_idem v hb]
    · by_cases hf : c = 'f'
      · subst hf
        show encodeStem ('f', uri_recode v []) = ('f', uri_recode v [])
        show ('f', uri_recode (uri_recode v []) []) = ('f', uri_recode v [])
        rw [uri_recode_recode v [] hb (by simp)]
      · have hcc : ¬ ((c, v).1 = 'p' ∨ (c, v).1 = 'q' ∨ (c, v).1 = 'f') := by
          intro hcon
          rcases hcon with h1 | h1 | h1
          · exact hp h1
          · exact hq h1
          · exact hf h1
        rw [encodeStem_sth _ hcc, encodeStem_sth _ hcc]

theorem stripSlashStems_subset (stems : List Stem) (x : Stem)
    (hx : x ∈ stripSlashStems stems) : x ∈ stems := by
  unfold stripSlashStems at hx
  split at hx
  · rename_i hall lastSt st rinit heq
    split at hx
    · have hx2 : x ∈ st :: rinit := List.mem_reverse.mp hx
      have hx3 : x ∈ lastSt :: st :: rinit := List.mem_cons_of_mem _ hx2
      rw [← heq] at hx3
      exact List.mem_reverse.mp hx3
    · exact hx
  · exact hx

/-- The stem-level strip is the identity when no reversed head matches. -/
theorem stripSlashStems_eq_self (u : List Stem)
    (h : ∀ lastSt st : Stem, ∀ rinit : List Stem, u.reverse = lastSt :: st :: rinit →
      ¬ (lastSt = ('p', ([] : Text)) ∧ (st.1 = 'h' ∨ pyInStr "h:".toList st.2 = true))) :
    stripSlashStems u = u := by
  unfold stripSlashStems
  split
  · rename_i hall lastSt st rinit heq
    rw [if_neg (h lastSt st rinit heq)]
  · rfl

theorem lowerStems_clean (u : List Stem) (h : StemsClean u) : StemsClean (lowerStems u) := by
  intro x hx
  obtain ⟨st, hst, rfl⟩ := List.mem_map.mp hx
  obtain ⟨ht, hp⟩ := h st hst
  refine ⟨by rw [lowerStem_fst]; exact ht, ?_⟩
  unfold lowerStem
  split
  · exact pyLower_no_pipe st.2 hp
  · exact hp

theorem encodeStems_clean (u : List Stem) (h : StemsClean u) :
    StemsClean (u.map encodeStem) := by
  intro x hx
  obtain ⟨st, hst, rfl⟩ := List.mem_map.mp hx
  obtain ⟨ht, hp⟩ := h st hst
  refine ⟨by rw [encodeStem_fst]; exact ht, ?_⟩
  unfold encodeStem
  by_cases hc : st.1 = 'p' ∨ st.1 = 'q' ∨ st.1 = 'f'
  · rw [if_pos hc]
    show '|' ∉ (if st.1 = 'q' then uri_recode_query st.2
      else uri_recode st.2 (if st.1 = 'p' then "/+".toList else []))
    by_cases hq : st.1 = 'q'
    · rw [if_pos hq]
      exact uri_recode_query_no_pipe st.2
    · rw [if_neg hq]
      apply uri_recode_no_pipe
      by_cases hpp : st.1 = 'p'
      · rw [if_pos hpp]
        decide
      · rw [if_neg hpp]
        simp
  · rw [if_neg hc]
    exact hp

theorem lowerStem_idem (st : Stem) : lowerStem (lowerStem st) = lowerStem st := by
  by_cases hc : st.1 = 's' ∨ st.1 = 'h'
  · have h1 : lowerStem st = (st.1, pyLower st.2) := by
      unfold lowerStem
      rw [if_pos hc]
    rw [h1]
    unfold lowerStem
    rw [if_pos (by simpa using hc)]
    rw [pyLower_idem]
  · rw [lowerStem_not_sh st hc, lowerStem_not_sh st hc]

theorem portFilter_keep (st : Stem) (h : st.1 ≠ 't') :
    ¬ (stemText st = "t:80".toList ∨ stemText st = "t:443".toList) := by
  intro hcon
  apply h
  rcases hcon with h1 | h1
  · have h2 : st.1 :: ':' :: st.2 = ['t', ':', '8', '0'] := by
      rw [show ("t:80".toList : Text) = ['t', ':', '8', '0'] from rfl] at h1
      exact h1
    injection h2 with ha hb
  · have h2 : st.1 :: ':' :: st.2 = ['t', ':', '4', '4', '3'] := by
      rw [show ("t:443".toList : Text) = ['t', ':', '4', '4', '3'] from rfl] at h1
      exact h1
    injection h2 with ha hb

/-- The stem-level strip either leaves the list alone or removes a final
empty path stem after a stem that reaches the end anchor with an h: run. -/
theorem stripSlashStems_cases (u : List Stem) :
    stripSlashStems u = u ∨
    ∃ pre st2, u = pre ++ [st2, ('p', ([] : Text))] ∧
      stripSlashStems u = pre ++ [st2] ∧
      (st2.1 = 'h' ∨ pyInStr "h:".toList st2.2 = true) := by
  unfold stripSlashStems
  split
  · rename_i hall lastSt st rinit heq
    split
    · rename_i hcond
      right
      refine ⟨rinit.reverse, st, ?_, by simp, hcond.2⟩
      have h2 := congrArg List.reverse heq
      simp only [List.reverse_reverse] at h2
      rw [h2, hcond.1]
      simp
    · left
      rfl
  · left
    rfl

/-- The whole lru_clean pipeline on a rendered stem list, in terms of the
stem-level mirror. -/
theorem lru_clean_render (stems : List Stem) (h : StemsClean stems) (hne : stems ≠ [])
    (hpfne : portFilter stems ≠ [])
    (hchk1 : splitCheckOK (portFilter stems))
    (hchk2 : splitCheckOK (stripSlashStems (lowerStems (portFilter stems)))) :
    lru_clean (renderLru stems) = some (renderLru (cleanStems stems)) := by
  have hclean1 : StemsClean (portFilter stems) := fun st hst =>
    h st (List.mem_of_mem_filter hst)
  have hclean2 : StemsClean (lowerStems (portFilter stems)) := lowerStems_clean _ hclean1
  have hl2ne : lowerStems (portFilter stems) ≠ [] := by
    simpa [lowerStems] using hpfne
  have hclean3 : StemsClean (stripSlashStems (lowerStems (portFilter stems))) :=
    stripSlashStems_clean _ hclean2
  have h3ne := stripSlashStems_ne_nil _ hl2ne
  have h1 := port_strip_render stems h hne
  have h2 := lowerize_render (portFilter stems) hclean1 hpfne hchk1
  have h3 := strip_render (lowerStems (portFilter stems)) hclean2 hl2ne
  have h4 := uriencode_stems
    (lru_strip_host_trailing_slash (renderLru (lowerStems (portFilter stems))))
    (stripSlashStems (lowerStems (portFilter stems))) hclean3 h3ne hchk2 h3
  show (lru_strip_standard_ports (renderLru stems)).bind (fun s1 =>
      (lru_lowerize_host s1).bind (fun s2 =>
        (lru_uriencode (lru_strip_host_trailing_slash s2)).bind (fun s4 =>
          some (add_trailing_pipe s4)))) = some (renderLru (cleanStems stems))
  rw [h1, Option.some_bind, h2, Option.some_bind, h4, Option.some_bind]
  rw [show add_trailing_pipe (renderLru
      ((stripSlashStems (lowerStems (portFilter stems))).map encodeStem)) =
    renderLru ((stripSlashStems (lowerStems (portFilter stems))).map encodeStem)
    from add_trailing_pipe_idem _]
  rfl

/-- lru_clean fails whenever the validating split inside the lowercasing
pass rejects the port-stripped stems. -/
theorem lru_clean_render_fail2 (stems : List Stem) (h : StemsClean stems) (hne : stems ≠ [])
    (hpfne : portFilter stems ≠ [])
    (hchk1 : ¬ splitCheckOK (portFilter stems)) :
    lru_clean (renderLru stems) = none := by
  have hclean1 : StemsClean (portFilter stems) := fun st hst =>
    h st (List.mem_of_mem_filter hst)
  have h1 := port_strip_render stems h hne
  have h2 := lowerize_render_fail (portFilter stems) hclean1 hpfne hchk1
  show (lru_strip_standard_ports (renderLru stems)).bind (fun s1 =>
      (lru_lowerize_host s1).bind (fun s2 =>
        (lru_uriencode (lru_strip_host_trailing_slash s2)).bind (fun s4 =>
          some (add_trailing_pipe s4)))) = none
  rw [h1, Option.some_bind, h2, Option.none_bind]

/-- lru_clean fails whenever the validating split inside the encoding pass
rejects the slash-stripped stems. -/
theorem lru_clean_render_fail4 (stems : List Stem) (h : StemsClean stems) (hne : stems ≠ [])
    (hpfne : portFilter stems ≠ [])
    (hchk1 : splitCheckOK (portFilter stems))
    (hchk2 : ¬ splitCheckOK (stripSlashStems (lowerStems (portFilter stems)))) :
    lru_clean (renderLru stems) = none := by
  have hclean1 : StemsClean (portFilter stems) := fun st hst =>
    h st (List.mem_of_mem_filter hst)
  have hclean2 : StemsClean (lowerStems (portFilter stems)) := lowerStems_clean _ hclean1
  have hl2ne : lowerStems (portFilter stems) ≠ [] := by
    simpa [lowerStems] using hpfne
  have hclean3 : StemsClean (stripSlashStems (lowerStems (portFilter stems))) :=
    stripSlashStems_clean _ hclean2
  have h3ne := stripSlashStems_ne_nil _ hl2ne
  have h1 := port_strip_render stems h hne
  have h2 := lowerize_render (portFilter stems) hclean1 hpfne hchk1
  have h3 := strip_render (lowerStems (portFilter stems)) hclean2 hl2ne
  have h4 := uriencode_stems_fail
    (lru_strip_host_trailing_slash (renderLru (lowerStems (portFilter stems))))
    (stripSlashStems (lowerStems (portFilter stems))) hclean3 h3ne hchk2 h3
  show (lru_strip_standard_ports (renderLru stems)).bind (fun s1 =>
      (lru_lowerize_host s1).bind (fun s2 =>
        (lru_uriencode (lru_strip_host_trailing_slash s2)).bind (fun s4 =>
          some (add_trailing_pipe s4)))) = none
  rw [h1, Option.some_bind, h2, Option.some_bind, h4, Option.none_bind]

theorem getD_cons_one (a : Stem) (l : List Stem) (d : Stem) : (a :: l).getD 1 d = l.getD 0 d :=
  rfl

theorem portFilter_cons_pos (a : Stem) (l : List Stem)
    (h : ¬ (stemText a = "t:80".toList ∨ stemText a = "t:443".toList)) :
    portFilter (a :: l) = a :: portFilter l := by
  unfold portFilter
  rw [List.filter_cons, if_pos (decide_eq_true h)]

theorem portFilter_cons_neg (a : Stem) (l : List Stem)
    (h : stemText a = "t:80".toList ∨ stemText a = "t:443".toList) :
    portFilter (a :: l) = portFilter l := by
  unfold portFilter
  rw [List.filter_cons, if_neg ?_]
  intro hcon
  exact (of_decide_eq_true hcon) h

theorem portFilter_eq_self (l : List Stem)
    (h : ∀ a ∈ l, ¬ (stemText a = "t:80".toList ∨ stemText a = "t:443".toList)) :
    portFilter l = l := by
  unfold portFilter
  apply List.filter_eq_self.mpr
  intro a ha
  exact decide_eq_true (h a ha)

/-- A stem list already in the image of the cleaning pipeline is a fixed
point of lru_clean once rendered. -/
theorem clean_fixed_point (S3 : List Stem) (hclean3 : StemsClean S3) (h3ne : S3 ≠ [])
    (hbyte3 : ∀ st ∈ S3, ByteText st.2)
    (htype1 : ¬ ((S3.getD 1 ('x', ([] : Text))).1 = 'p' ∨
      (S3.getD 1 ('x', ([] : Text))).1 = 'q' ∨ (S3.getD 1 ('x', ([] : Text))).1 = 'f'))
    (hchk3 : splitCheckOK S3)
    (hT : ∀ st ∈ S3, st.1 = 't' →
      ¬ (stemText st = "t:80".toList ∨ stemText st = "t:443".toList))
    (hSH : ∀ st ∈ S3, (st.1 = 's' ∨ st.1 = 'h') → pyLower st.2 = st.2)
    (hnofire : stripSlashStems (S3.map encodeStem) = S3.map encodeStem) :
    lru_clean (renderLru (S3.map encodeStem)) = some (renderLru (S3.map encodeStem)) := by
  have hcleanE := encodeStems_clean _ hclean3
  have hEne : S3.map encodeStem ≠ [] := by simpa using h3ne
  have hPFE : portFilter (S3.map encodeStem) = S3.map encodeStem := by
    unfold portFilter
    apply List.filter_eq_self.mpr
    intro x hx
    simp only [decide_eq_true_eq]
    obtain ⟨st, hst3, rfl⟩ := List.mem_map.mp hx
    by_cases hTc : st.1 = 't'
    · have hnc : ¬ (st.1 = 'p' ∨ st.1 = 'q' ∨ st.1 = 'f') := by rw [hTc]; decide
      rw [encodeStem_sth st hnc]
      exact hT st hst3 hTc
    · exact portFilter_keep _ (by rw [encodeStem_fst]; exact hTc)
  have hlowE : lowerStems (S3.map encodeStem) = S3.map encodeStem := by
    unfold lowerStems
    have hptw : ∀ x ∈ S3.map encodeStem, lowerStem x = id x := by
      intro x hx
      obtain ⟨st, hst3, rfl⟩ := List.mem_map.mp hx
      by_cases hsh : st.1 = 's' ∨ st.1 = 'h'
      · have hnc : ¬ (st.1 = 'p' ∨ st.1 = 'q' ∨ st.1 = 'f') := by
          rcases hsh with h5 | h5 <;> (rw [h5]; decide)
        rw [encodeStem_sth st hnc]
        show lowerStem st = st
        unfold lowerStem
        rw [if_pos hsh, hSH st hst3 hsh]
      · exact lowerStem_not_sh _ (by rw [encodeStem_fst]; exact hsh)
    rw [List.map_congr_left hptw, List.map_id]
  have hchkE : splitCheckOK (S3.map encodeStem) := splitCheckOK_encode S3 htype1 hchk3
  have hencE : (S3.map encodeStem).map encodeStem = S3.map encodeStem := by
    rw [List.map_map]
    apply List.map_congr_left
    intro st hst
    exact encodeStem_idem st (hbyte3 st hst)
  have hrun := lru_clean_render (S3.map encodeStem) hcleanE hEne
    (by rw [hPFE]; exact hEne) (by rw [hPFE]; exact hchkE)
    (by rw [hPFE, hlowE, hnofire]; exact hchkE)
  rw [hrun]
  unfold cleanStems
  rw [hPFE, hlowE, hnofire, hencE]

/-- Modelled from the claim wording of C4: the number of stems remaining
after stripping the resolved head, as a literal prefix, from the lru
(counted with the non-strict stem split that lru_is_node itself uses). -/
def stem_count_after_head (lru head : Text) : Option Nat :=
  (split_lru_in_stems (lru.drop head.length) false).map List.length

/-- C1: the claim asserts that canonicalize succeeds on every well-typed
LRU, in particular on s:http|t:80|h:com| .  The code contradicts it: the
input passes the validating stem split (it is well typed), yet lru_clean
raises, because lru_strip_standard_ports first removes the t:80 stem and
the validating re-split inside lru_lowerize_host then requires a third stem
of type h, which a single-host LRU no longer has. -/
theorem c1_clean_fails_on_single_host_lru :
    split_lru_in_stems "s:http|t:80|h:com|".toList true =
      some [(['s'], "http".toList, "s:http".toList),
            (['t'], "80".toList, "t:80".toList),
            (['h'], "com".toList, "h:com".toList)] ∧
    lru_clean "s:http|t:80|h:com|".toList = none := by
  constructor
  · decide
  · decide

/-- C2 (counterexample): canonicalize is not idempotent on every input it
succeeds on.  On s:http|p:[::1]| the validating splits pass only because
the second captured value matches special_hosts; canonicalize succeeds and
percent-encodes that value, after which the re-encoded value no longer
matches special_hosts and the second application raises. -/
theorem c2_clean_not_idempotent_counterexample :
    lru_clean "s:http|p:[::1]|".toList = some "s:http|p:%5B%3A%3A1%5D|".toList ∧
    lru_clean "s:http|p:%5B%3A%3A1%5D|".toList = none := by
  constructor
  · decide
  · decide

/-- C3 (counterexample): with the exception list containing only the empty
string, the empty exception is a literal prefix of the lru, yet get_head
does not return it (the longest prefix exception); it falls back to the
default host run, because the source keeps only exceptions of length
strictly greater than the current candidate, which starts empty, and then
treats the empty result as no match. -/
theorem c3_get_head_empty_exception_counterexample :
    ([] : Text) <+: "s:http|t:80|h:com|".toList ∧
    lru_get_head "s:http|t:80|h:com|".toList [[]] = some "s:http|t:80|h:com|".toList ∧
    some ([] : Text) ≠ some "s:http|t:80|h:com|".toList := by
  refine ⟨List.nil_prefix, by decide, by decide⟩

/-- C4 (counterexample): is_node does not agree with the stem count left
after stripping the resolved head, because the source removes every
occurrence of the head with str.replace, not just the leading one.  Here
the head s:http| resolved from the precision exceptions also occurs inside
the path value p:s:http, so is_node counts 3 remaining stems and returns
true at limit 3, while stripping the head as a prefix leaves 4 stems. -/
theorem c4_is_node_replace_all_counterexample :
    lru_get_head "s:http|t:80|h:com|p:s:http|p:b|".toList ["s:http|".toList] =
      some "s:http|".toList ∧
    lru_is_node "s:http|t:80|h:com|p:s:http|p:b|".toList 3 ["s:http|".toList] = some true ∧
    stem_count_after_head "s:http|t:80|h:com|p:s:http|p:b|".toList "s:http|".toList = some 4 ∧
    ¬ (4 ≤ 3) := by
  refine ⟨by decide, by decide, by decide, by decide⟩

/-- C5: encode_url on http://www.google.com/search?q=text&p=2 produces
exactly the LRU of the claim: scheme stem, default port 80, reversed host
labels, one path stem, one query stem with the raw pairs, trailing pipe. -/
theorem c5_encode_url_google_example :
    url_to_lru "http://www.google.com/search?q=text&p=2".toList =
      some "s:http|t:80|h:com|h:google|h:www|p:search|q:q=text&p=2|".toList := by
  decide

/-- C6 (counterexample): parent_prefixes of
s:http|t:80|h:com|h:example|p:a|p:b| returns five entries, not the four the
claim asserts; the while loop of the source continues down to the prefix
holding the single scheme stem s:http| . -/
theorem c6_parent_prefixes_counterexample :
    (lru_parent_prefixes "s:http|t:80|h:com|h:example|p:a|p:b|".toList).map List.length =
      some 5 := by
  decide

/-- C6 (amended): parent_prefixes of s:http|t:80|h:com|h:example|p:a|p:b|
returns exactly five entries, longest first and strictly shrinking, each
with a trailing pipe: the prefixes ending after p:a, after h:example, after
h:com, after t:80, and after s:http. -/
theorem c6_parent_prefixes_amended :
    lru_parent_prefixes "s:http|t:80|h:com|h:example|p:a|p:b|".toList =
      some ["s:http|t:80|h:com|h:example|p:a|".toList,
            "s:http|t:80|h:com|h:example|".toList,
            "s:http|t:80|h:com|".toList,
            "s:http|t:80|".toList,
            "s:http|".toList] := by
  decide

/-- C7 (counterexample): a URL whose scheme is httpx, which is neither http
nor https, is not rejected: lruSchemePattern is applied with re.match and
the pattern https? succeeds on any scheme that merely starts with http, so
encode_url happily produces an LRU with scheme stem s:httpx. -/
theorem c7_encode_url_httpx_counterexample :
    url_to_lru "httpx://a.com".toList = some "s:httpx|t:80|h:com|h:a|".toList := by
  decide

/-- C8 (counterexample): standard-port stripping is not scheme-paired; a
t:443 stem is removed even though the scheme stem is s:http, since the
source filters on the stem text alone. -/
theorem c8_strip_ports_not_scheme_paired_counterexample :
    lru_strip_standard_ports "s:http|t:443|h:com|h:example|".toList =
      some "s:http|h:com|h:example|".toList ∧
    some "s:http|h:com|h:example|".toList ≠
      some "s:http|t:443|h:com|h:example|".toList := by
  refine ⟨by decide, by decide⟩

/-- C9 (counterexample): the pair a= of a=&b=c, whose value is empty, is
not preserved: the queryStems pattern requires a nonempty value, the pair
is never captured, and the recoded query drops it entirely. -/
theorem c9_recode_query_drops_empty_value_counterexample :
    uri_recode_query "a=&b=c".toList = "b=c".toList ∧
    "b=c".toList ≠ "a=&b=c".toList := by
  refine ⟨by decide, by decide⟩

/-- C2 (amended): canonicalize is not idempotent on all of its domain (the
counterexample shows a second application can even raise), but it is
idempotent on every well-typed byte-string LRU, that is one scheme stem,
one port stem, one or more host stems, then only path, query and fragment
stems, with pipe-free byte values: whenever the first application succeeds
there, the second returns the same string unchanged. -/
theorem c2_clean_idempotent_well_typed (sv tv : Text) (hs tl : List Stem) (y : Text)
    (hhs : hs ≠ []) (hhst : ∀ st ∈ hs, st.1 = 'h')
    (htl : ∀ st ∈ tl, st.1 = 'p' ∨ st.1 = 'q' ∨ st.1 = 'f')
    (hclean : StemsClean (('s', sv) :: ('t', tv) :: hs ++ tl))
    (hbyte : ∀ st ∈ ('s', sv) :: ('t', tv) :: hs ++ tl, ByteText st.2)
    (hy : lru_clean (renderLru (('s', sv) :: ('t', tv) :: hs ++ tl)) = some y) :
    lru_clean y = some y := by
  have hstems0ne : (('s', sv) :: ('t', tv) :: hs ++ tl : List Stem) ≠ [] := by simp
  have hkeepAll : portFilter (hs ++ tl) = hs ++ tl := by
    apply portFilter_eq_self
    intro st hst
    rcases List.mem_append.mp hst with h1 | h1
    · exact portFilter_keep st (by rw [hhst st h1]; decide)
    · rcases htl st h1 with h2 | h2 | h2 <;>
        exact portFilter_keep st (by rw [h2]; decide)
  obtain ⟨tp, hpf, htpcase⟩ : ∃ tp : List Stem,
      portFilter (('s', sv) :: ('t', tv) :: hs ++ tl) = ('s', sv) :: (tp ++ (hs ++ tl)) ∧
      (tp = [] ∨ tp = [('t', tv)]) := by
    by_cases hT : stemText ('t', tv) = "t:80".toList ∨ stemText ('t', tv) = "t:443".toList
    · refine ⟨[], ?_, Or.inl rfl⟩
      rw [show (('s', sv) :: ('t', tv) :: hs ++ tl : List Stem) =
        ('s', sv) :: (('t', tv) :: (hs ++ tl)) from rfl]
      rw [portFilter_cons_pos _ _ (portFilter_keep ('s', sv) (by simp)),
        portFilter_cons_neg _ _ hT, hkeepAll]
      rfl
    · refine ⟨[('t', tv)], ?_, Or.inr rfl⟩
      rw [show (('s', sv) :: ('t', tv) :: hs ++ tl : List Stem) =
        ('s', sv) :: (('t', tv) :: (hs ++ tl)) from rfl]
      rw [portFilter_cons_pos _ _ (portFilter_keep ('s', sv) (by simp)),
        portFilter_cons_pos _ _ hT, hkeepAll]
      rfl
  have hmem1 : ∀ st ∈ ('s', sv) :: (tp ++ (hs ++ tl)),
      st ∈ ('s', sv) :: ('t', tv) :: hs ++ tl := by
    intro st hst
    rcases List.mem_cons.mp hst with h1 | h1
    · rw [h1]
      exact List.mem_cons_self _ _
    · rcases List.mem_append.mp h1 with h2 | h2
      · rcases htpcase with rfl | rfl
        · simp at h2
        · rw [List.mem_singleton.mp h2]
          exact List.mem_cons_of_mem _ (List.mem_cons_self _ _)
      · exact List.mem_cons_of_mem _ (List.mem_cons_of_mem _ h2)
  have hclean1 : StemsClean (('s', sv) :: (tp ++ (hs ++ tl))) := fun st hst =>
    hclean st (hmem1 st hst)
  have hbyte1 : ∀ st ∈ ('s', sv) :: (tp ++ (hs ++ tl)), ByteText st.2 := fun st hst =>
    hbyte st (hmem1 st hst)
  have hpfne : portFilter (('s', sv) :: ('t', tv) :: hs ++ tl) ≠ [] := by
    rw [hpf]
    simp
  by_cases hchk1 : splitCheckOK (portFilter (('s', sv) :: ('t', tv) :: hs ++ tl))
  case neg =>
    rw [lru_clean_render_fail2 _ hclean hstems0ne hpfne hchk1] at hy
    cases hy
  by_cases hchk2 : splitCheckOK (stripSlashStems (lowerStems
      (portFilter (('s', sv) :: ('t', tv) :: hs ++ tl))))
  case neg =>
    rw [lru_clean_render_fail4 _ hclean hstems0ne hpfne hchk1 hchk2] at hy
    cases hy
  -- the successful run of the first application
  have hrun := lru_clean_render _ hclean hstems0ne hpfne hchk1 hchk2
  have hyeq : y = renderLru
      ((stripSlashStems (lowerStems (('s', sv) :: (tp ++ (hs ++ tl))))).map encodeStem) := by
    rw [hrun] at hy
    injection hy with h0
    rw [← h0]
    unfold cleanStems
    rw [hpf]
  rw [hpf] at hchk1 hchk2
  -- facts about the lowered stems
  have hclean2 : StemsClean (lowerStems (('s', sv) :: (tp ++ (hs ++ tl)))) :=
    lowerStems_clean _ hclean1
  have h2ne : lowerStems (('s', sv) :: (tp ++ (hs ++ tl))) ≠ [] := by
    simp [lowerStems]
  have hclean3 := stripSlashStems_clean _ hclean2
  have h3ne := stripSlashStems_ne_nil _ h2ne
  have hlowS : lowerStem ('s', sv) = ('s', pyLower sv) := by
    unfold lowerStem
    rw [if_pos (Or.inl rfl)]
  have htlid : tl.map lowerStem = tl := by
    have h0 : ∀ st ∈ tl, lowerStem st = id st := by
      intro st hst
      rcases htl st hst with h2 | h2 | h2 <;>
        exact lowerStem_not_sh st (by rw [h2]; decide)
    rw [List.map_congr_left h0, List.map_id]
  have htp2 : tp.map lowerStem = tp := by
    rcases htpcase with rfl | rfl
    · rfl
    · show [lowerStem ('t', tv)] = [('t', tv)]
      rw [lowerStem_not_sh ('t', tv) (by simp)]
  have hstems2eq : lowerStems (('s', sv) :: (tp ++ (hs ++ tl))) =
      ('s', pyLower sv) :: (tp ++ (hs.map lowerStem ++ tl)) := by
    unfold lowerStems
    rw [List.map_cons, hlowS, List.map_append, List.map_append, htp2, htlid]
  have hhs2t : ∀ st ∈ hs.map lowerStem, st.1 = 'h' := by
    intro st hst
    obtain ⟨st0, hst0, rfl⟩ := List.mem_map.mp hst
    rw [lowerStem_fst]
    exact hhst st0 hst0
  have hhs2ne : hs.map lowerStem ≠ [] := by simpa using hhs
  -- the second stem of the lowered list is a port or host stem
  have hhead1 : ((tp ++ (hs.map lowerStem ++ tl)).getD 0 ('x', ([] : Text))).1 = 't' ∨
      ((tp ++ (hs.map lowerStem ++ tl)).getD 0 ('x', ([] : Text))).1 = 'h' := by
    rcases htpcase with rfl | rfl
    · rcases hmap : hs.map lowerStem with _ | ⟨h0, hrest⟩
      · exact absurd (by simpa using hmap) hhs
      · right
        show (((h0 :: hrest) ++ tl).getD 0 ('x', ([] : Text))).1 = 'h'
        rw [show ((h0 :: hrest) ++ tl : List Stem) = h0 :: (hrest ++ tl) from rfl]
        rw [List.getD_cons_zero]
        exact hhs2t h0 (by rw [hmap]; exact List.mem_cons_self _ _)
    · left
      rfl
  have hgd2 : ((lowerStems (('s', sv) :: (tp ++ (hs ++ tl)))).getD 1 ('x', ([] : Text))).1 = 't' ∨
      ((lowerStems (('s', sv) :: (tp ++ (hs ++ tl)))).getD 1 ('x', ([] : Text))).1 = 'h' := by
    rw [hstems2eq, getD_cons_one]
    exact hhead1
  have htype1 : ¬ (((stripSlashStems (lowerStems (('s', sv) ::
        (tp ++ (hs ++ tl))))).getD 1 ('x', ([] : Text))).1 = 'p' ∨
      ((stripSlashStems (lowerStems (('s', sv) ::
        (tp ++ (hs ++ tl))))).getD 1 ('x', ([] : Text))).1 = 'q' ∨
      ((stripSlashStems (lowerStems (('s', sv) ::
        (tp ++ (hs ++ tl))))).getD 1 ('x', ([] : Text))).1 = 'f') := by
    have hval : ((stripSlashStems (lowerStems (('s', sv) ::
        (tp ++ (hs ++ tl))))).getD 1 ('x', ([] : Text))).1 = 't' ∨
        ((stripSlashStems (lowerStems (('s', sv) ::
          (tp ++ (hs ++ tl))))).getD 1 ('x', ([] : Text))).1 = 'h' ∨
        ((stripSlashStems (lowerStems (('s', sv) ::
          (tp ++ (hs ++ tl))))).getD 1 ('x', ([] : Text))).1 = 'x' := by
      rcases stripSlashStems_cases (lowerStems (('s', sv) :: (tp ++ (hs ++ tl)))) with
        hcase | ⟨pre, st2, hupre, hres, hcond2⟩
      · rw [hcase]
        rcases hgd2 with h5 | h5
        · exact Or.inl h5
        · exact Or.inr (Or.inl h5)
      · rw [hres]
        by_cases hlen : 1 < (pre ++ [st2]).length
        · have heq2 : (pre ++ [st2]).getD 1 ('x', ([] : Text)) =
              (lowerStems (('s', sv) :: (tp ++ (hs ++ tl)))).getD 1 ('x', ([] : Text)) := by
            rw [hupre, show pre ++ [st2, ('p', ([] : Text))] =
              (pre ++ [st2]) ++ [('p', ([] : Text))] from by simp]
            rw [List.getD_append _ _ _ _ hlen]
          rw [heq2]
          rcases hgd2 with h5 | h5
          · exact Or.inl h5
          · exact Or.inr (Or.inl h5)
        · rw [List.getD_eq_default _ _ (by omega)]
          exact Or.inr (Or.inr rfl)
    rcases hval with h5 | h5 | h5 <;> (rw [h5]; decide)
  -- the port stems of the stripped list survived the filter
  have hT3 : ∀ st ∈ stripSlashStems (lowerStems (('s', sv) :: (tp ++ (hs ++ tl)))),
      st.1 = 't' → ¬ (stemText st = "t:80".toList ∨ stemText st = "t:443".toList) := by
    intro st hst3 hTc
    have h2 : st ∈ lowerStems (('s', sv) :: (tp ++ (hs ++ tl))) :=
      stripSlashStems_subset _ st hst3
    obtain ⟨st1, hst1, rfl⟩ := List.mem_map.mp h2
    have hfst : st1.1 = 't' := by
      rw [← lowerStem_fst st1]
      exact hTc
    have hid : lowerStem st1 = st1 := lowerStem_not_sh st1 (by rw [hfst]; decide)
    rw [hid]
    have hmemf : st1 ∈ List.filter (fun st : Stem =>
        decide ¬(stemText st = "t:80".toList ∨ stemText st = "t:443".toList))
        (('s', sv) :: ('t', tv) :: hs ++ tl) := by
      show st1 ∈ portFilter (('s', sv) :: ('t', tv) :: hs ++ tl)
      rw [hpf]
      exact hst1
    have hfp := List.of_mem_filter hmemf
    simpa using hfp
  -- scheme and host values of the stripped list are lowercase fixed points
  have hSH3 : ∀ st ∈ stripSlashStems (lowerStems (('s', sv) :: (tp ++ (hs ++ tl)))),
      (st.1 = 's' ∨ st.1 = 'h') → pyLower st.2 = st.2 := by
    intro st hst3 hsh
    have h2 : st ∈ lowerStems (('s', sv) :: (tp ++ (hs ++ tl))) :=
      stripSlashStems_subset _ st hst3
    obtain ⟨st1, hst1, rfl⟩ := List.mem_map.mp h2
    have hsh1 : st1.1 = 's' ∨ st1.1 = 'h' := by rwa [← lowerStem_fst st1]
    have hl : lowerStem st1 = (st1.1, pyLower st1.2) := by
      unfold lowerStem
      rw [if_pos hsh1]
    rw [hl]
    show pyLower (pyLower st1.2) = pyLower st1.2
    exact pyLower_idem st1.2
  have hbyte2 : ∀ st ∈ lowerStems (('s', sv) :: (tp ++ (hs ++ tl))), ByteText st.2 := by
    intro st hst
    obtain ⟨st1, hst1, rfl⟩ := List.mem_map.mp hst
    unfold lowerStem
    split
    · exact pyLower_byte _ (hbyte1 st1 hst1)
    · exact hbyte1 st1 hst1
  have hbyte3 : ∀ st ∈ stripSlashStems (lowerStems (('s', sv) :: (tp ++ (hs ++ tl)))),
      ByteText st.2 := fun st hst => hbyte2 st (stripSlashStems_subset _ st hst)
  -- the encoded result is not strippable again
  have hnofire : stripSlashStems ((stripSlashStems (lowerStems (('s', sv) ::
      (tp ++ (hs ++ tl))))).map encodeStem) =
      (stripSlashStems (lowerStems (('s', sv) :: (tp ++ (hs ++ tl))))).map encodeStem := by
    apply stripSlashStems_eq_self
    intro lastE stE rinitE hrevE
    rintro ⟨hlastE, hcondE2⟩
    rw [show ((stripSlashStems (lowerStems (('s', sv) ::
        (tp ++ (hs ++ tl))))).map encodeStem).reverse =
      ((stripSlashStems (lowerStems (('s', sv) :: (tp ++ (hs ++ tl))))).reverse).map encodeStem
      from (List.map_reverse _ _).symm] at hrevE
    rcases h3r : (stripSlashStems (lowerStems (('s', sv) :: (tp ++ (hs ++ tl))))).reverse with
      _ | ⟨l3, r3⟩
    · rw [h3r] at hrevE
      simp at hrevE
    rcases r3 with _ | ⟨st3, r3'⟩
    · rw [h3r] at hrevE
      simp at hrevE
    rw [h3r] at hrevE
    simp only [List.map_cons] at hrevE
    have hencl3 : encodeStem l3 = lastE := by
      injection hrevE
    have hrest : encodeStem st3 :: List.map encodeStem r3' = stE :: rinitE := by
      injection hrevE
    have hencst3 : encodeStem st3 = stE := by
      injection hrest
    rcases l3 with ⟨c3, v3⟩
    have hc3 : c3 = 'p' := by
      rw [show c3 = (encodeStem (c3, v3)).1 from (encodeStem_fst (c3, v3)).symm, hencl3, hlastE]
    subst hc3
    have hv3 : v3 = [] := by
      by_contra hne0
      have henc : encodeStem ('p', v3) = ('p', uri_recode v3 "/+".toList) := rfl
      rw [henc, hlastE] at hencl3
      injection hencl3 with h9 h10
      exact uri_recode_ne_nil v3 _ hne0 h10
    subst hv3
    rcases stripSlashStems_cases (lowerStems (('s', sv) :: (tp ++ (hs ++ tl)))) with
      hcase | ⟨pre, st2, hupre, hres, hcond2⟩
    · -- no strip happened in the first application
      rw [hcase] at h3r
      have hrev2 : (lowerStems (('s', sv) :: (tp ++ (hs ++ tl)))).reverse =
          tl.reverse ++ ((hs.map lowerStem).reverse ++
            (tp.reverse ++ [('s', pyLower sv)])) := by
        rw [hstems2eq]
        simp [List.reverse_append]
      rw [hrev2] at h3r
      rcases htlr : tl.reverse with _ | ⟨t1, tr⟩
      · rw [htlr] at h3r
        simp only [List.nil_append] at h3r
        rcases hhsr : (hs.map lowerStem).reverse with _ | ⟨hh, hhr⟩
        · exact absurd (by simpa using hhsr) hhs2ne
        · rw [hhsr] at h3r
          have h11 : hh = ('p', ([] : Text)) := by
            injection h3r
          have h12 : hh.1 = 'h' := hhs2t hh (by
            rw [← List.mem_reverse, hhsr]
            exact List.mem_cons_self _ _)
          rw [h11] at h12
          exact absurd h12 (by decide)
      · rw [htlr] at h3r
        have h11a : t1 = ('p', ([] : Text)) := by
          injection h3r
        have h11b : tr ++ ((hs.map lowerStem).reverse ++ (tp.reverse ++ [('s', pyLower sv)])) =
            st3 :: r3' := by
          injection h3r
        have hmem4 : st3 ∈ hs.map lowerStem ∨ st3 ∈ tl := by
          rcases htr : tr with _ | ⟨t2, tr'⟩
          · rw [htr] at h11b
            simp only [List.nil_append] at h11b
            rcases hhsr : (hs.map lowerStem).reverse with _ | ⟨hh, hhr⟩
            · exact absurd (by simpa using hhsr) hhs2ne
            · rw [hhsr] at h11b
              have h13 : hh = st3 := by
                injection h11b
              left
              rw [← h13, ← List.mem_reverse, hhsr]
              exact List.mem_cons_self _ _
          · rw [htr] at h11b
            have h13 : t2 = st3 := by
              injection h11b
            right
            rw [← h13]
            have h14 : t2 ∈ tl.reverse := by
              rw [htlr, htr]
              exact List.mem_cons_of_mem _ (List.mem_cons_self _ _)
            exact List.mem_reverse.mp h14
        have hrevfull : (lowerStems (('s', sv) :: (tp ++ (hs ++ tl)))).reverse =
            ('p', ([] : Text)) :: st3 :: r3' := by
          rw [hrev2, htlr]
          rw [show (t1 :: tr) ++ ((hs.map lowerStem).reverse ++
              (tp.reverse ++ [('s', pyLower sv)])) =
            t1 :: (tr ++ ((hs.map lowerStem).reverse ++
              (tp.reverse ++ [('s', pyLower sv)]))) from rfl]
          rw [h11a, h11b]
        rcases hmem4 with hmemH | hmemT
        · -- a host stem before the final empty path stem: the strip fires
          have hst3h : st3.1 = 'h' := hhs2t st3 hmemH
          have hfire : stripSlashStems (lowerStems (('s', sv) :: (tp ++ (hs ++ tl)))) =
              (st3 :: r3').reverse := by
            unfold stripSlashStems
            rw [hrevfull]
            show (if ('p', ([] : Text)) = ('p', ([] : Text)) ∧
                (st3.1 = 'h' ∨ pyInStr "h:".toList st3.2 = true) then
              (st3 :: r3').reverse else lowerStems (('s', sv) :: (tp ++ (hs ++ tl)))) =
              (st3 :: r3').reverse
            rw [if_pos ⟨rfl, Or.inl hst3h⟩]
          rw [hcase] at hfire
          have hlen1 := congrArg List.length hrevfull
          have hlen2 := congrArg List.length hfire
          simp at hlen1 hlen2
          omega
        · -- a recoded tail stem: its value holds no colon
          rcases htl st3 hmemT with h14 | h14 | h14
          · rcases hcondE2 with h15 | h15
            · rw [← hencst3, encodeStem_fst, h14] at h15
              exact absurd h15 (by decide)
            · have henc : encodeStem st3 = (st3.1, uri_recode st3.2 "/+".toList) := by
                unfold encodeStem
                rw [if_pos (Or.inl h14), if_neg (by rw [h14]; decide), if_pos h14]
              have hcolon : ':' ∈ uri_recode st3.2 "/+".toList :=
                pyInStr_hocc_colon _ (by
                  rw [← hencst3, henc] at h15
                  exact h15)
              exact uri_recode_no_colon st3.2 "/+".toList (by decide) hcolon
          · rcases hcondE2 with h15 | h15
            · rw [← hencst3, encodeStem_fst, h14] at h15
              exact absurd h15 (by decide)
            · have henc : encodeStem st3 = (st3.1, uri_recode_query st3.2) := by
                unfold encodeStem
                rw [if_pos (Or.inr (Or.inl h14)), if_pos h14]
              have hcolon : ':' ∈ uri_recode_query st3.2 :=
                pyInStr_hocc_colon _ (by
                  rw [← hencst3, henc] at h15
                  exact h15)
              exact uri_recode_query_no_colon st3.2 hcolon
          · rcases hcondE2 with h15 | h15
            · rw [← hencst3, encodeStem_fst, h14] at h15
              exact absurd h15 (by decide)
            · have henc : encodeStem st3 = (st3.1, uri_recode st3.2 []) := by
                unfold encodeStem
                rw [if_pos (Or.inr (Or.inr h14)), if_neg (by rw [h14]; decide),
                  if_neg (by rw [h14]; decide)]
              have hcolon : ':' ∈ uri_recode st3.2 [] :=
                pyInStr_hocc_colon _ (by
                  rw [← hencst3, henc] at h15
                  exact h15)
              exact uri_recode_no_colon st3.2 [] (by simp) hcolon
    · -- the strip fired in the first application: its result cannot end in
      -- an empty path stem
      rw [hres] at h3r
      have h9 : st2 :: pre.reverse = ('p', ([] : Text)) :: st3 :: r3' := by
        rw [← h3r]
        simp
      have hst2 : st2 = ('p', ([] : Text)) := by
        injection h9
      rcases hcond2 with h10 | h10
      · rw [hst2] at h10
        exact absurd h10 (by decide)
      · rw [hst2] at h10
        exact absurd h10 (by decide)
  rw [hyeq]
  exact clean_fixed_point (stripSlashStems (lowerStems (('s', sv) :: (tp ++ (hs ++ tl)))))
    hclean3 h3ne hbyte3 htype1 hchk2 hT3 hSH3 hnofire

theorem c2_clean_idempotent_well_typed_witness :
    (((('h', "com".toList) : Stem) :: [] ≠ []) ∧
     (∀ st ∈ [(('h', "com".toList) : Stem)], st.1 = 'h') ∧
     (∀ st ∈ ([(('p', "A B".toList) : Stem)] : List Stem),
       st.1 = 'p' ∨ st.1 = 'q' ∨ st.1 = 'f') ∧
     StemsClean (('s', "http".toList) :: ('t', "8080".toList) ::
       [('h', "com".toList)] ++ [('p', "A B".toList)]) ∧
     (∀ st ∈ ('s', "http".toList) :: ('t', "8080".toList) ::
       [('h', "com".toList)] ++ [('p', "A B".toList)], ByteText st.2) ∧
     lru_clean (renderLru (('s', "http".toList) :: ('t', "8080".toList) ::
       [('h', "com".toList)] ++ [('p', "A B".toList)])) =
       some "s:http|t:8080|h:com|p:A%20B|".toList) ∧
    lru_clean "s:http|t:8080|h:com|p:A%20B|".toList =
      some "s:http|t:8080|h:com|p:A%20B|".toList :=
  ⟨⟨by decide, by decide, by decide, by unfold StemsClean; decide,
    by unfold ByteText; decide, by decide⟩,
   c2_clean_idempotent_well_typed "http".toList "8080".toList
     [('h', "com".toList)] [('p', "A B".toList)] "s:http|t:8080|h:com|p:A%20B|".toList
     (by decide) (by decide) (by decide) (by unfold StemsClean; decide)
     (by unfold ByteText; decide) (by decide)⟩

/-- C3 (amended): get_head selects the longest NONEMPTY exception that is a
literal prefix of the lru: whenever some nonempty exception is a prefix, the
returned head is an exception, a prefix, and at least as long as every
exception prefix.  The concrete judgement of the claim holds: with the
exception s:http|t:80|h:com|h:example| the head is that exception verbatim,
not the shorter default. -/
theorem c3_head_longest_nonempty (lru e : Text) (excs : List Text)
    (he : e ∈ excs) (hp : e.isPrefixOf lru = true) (hne : e ≠ []) :
    (∃ p, lru_get_head lru excs = some p ∧ p ∈ excs ∧ p.isPrefixOf lru = true ∧
      ∀ e2 ∈ excs, e2.isPrefixOf lru = true → e2.length ≤ p.length) ∧
    lru_get_head "s:http|t:80|h:com|h:example|p:a|".toList
      ["s:http|t:80|h:com|h:example|".toList] =
      some "s:http|t:80|h:com|h:example|".toList := by
  refine ⟨?_, by decide⟩
  have hlen : e.length ≤ (headFold lru excs []).length := headFold_best lru excs [] e he hp
  have hepos : 0 < e.length := List.length_pos.mpr hne
  have hpne : headFold lru excs [] ≠ [] := by
    intro hcon
    rw [hcon] at hlen
    simp only [List.length_nil, Nat.le_zero, List.length_eq_zero] at hlen
    exact hne hlen
  rcases headFold_mem lru excs [] with h1 | ⟨h1, h2⟩
  · exact absurd h1 hpne
  · refine ⟨headFold lru excs [], ?_, h1, h2,
      fun e2 he2 hp2 => headFold_best lru excs [] e2 he2 hp2⟩
    rw [lru_get_head_eq_fold, if_pos hpne]

theorem c3_head_longest_nonempty_witness :
    ("s:http|t:80|h:com|h:example|".toList ∈ ["s:http|t:80|h:com|h:example|".toList] ∧
     "s:http|t:80|h:com|h:example|".toList.isPrefixOf
       "s:http|t:80|h:com|h:example|p:a|".toList = true ∧
     "s:http|t:80|h:com|h:example|".toList ≠ ([] : Text)) ∧
    ((∃ p, lru_get_head "s:http|t:80|h:com|h:example|p:a|".toList
        ["s:http|t:80|h:com|h:example|".toList] = some p ∧
        p ∈ ["s:http|t:80|h:com|h:example|".toList] ∧
        p.isPrefixOf "s:http|t:80|h:com|h:example|p:a|".toList = true ∧
        ∀ e2 ∈ ["s:http|t:80|h:com|h:example|".toList],
          e2.isPrefixOf "s:http|t:80|h:com|h:example|p:a|".toList = true →
            e2.length ≤ p.length) ∧
     lru_get_head "s:http|t:80|h:com|h:example|p:a|".toList
       ["s:http|t:80|h:com|h:example|".toList] =
       some "s:http|t:80|h:com|h:example|".toList) :=
  ⟨⟨by decide, by decide, by decide⟩,
   c3_head_longest_nonempty "s:http|t:80|h:com|h:example|p:a|".toList
     "s:http|t:80|h:com|h:example|".toList ["s:http|t:80|h:com|h:example|".toList]
     (by decide) (by decide) (by decide)⟩

/-- C4 (amended): is_node compares the precision limit against the stem
count of the lru after removing EVERY occurrence of the resolved head with
str.replace; when the head occurs in the lru only as its literal prefix,
this is exactly the stem count after stripping the head as a prefix.  Both
concrete judgements of the claim hold. -/
theorem c4_is_node_counts_after_replace (lru hd rest : Text) (excs : List Text)
    (limit : Nat) (hh : lru_get_head lru excs = some hd) (hsplit : lru = hd ++ rest)
    (hne : hd ≠ []) (honce : pyInStr hd rest = false) :
    lru_is_node lru limit excs =
      (split_lru_in_stems rest false).map (fun stems => decide (stems.length ≤ limit)) ∧
    lru_is_node "s:http|t:80|h:com|h:example|".toList 1 [] = some true ∧
    lru_is_node "s:http|t:80|h:com|h:example|p:a|p:b|".toList 1 [] = some false := by
  refine ⟨?_, by decide, by decide⟩
  have hrepl : pyReplaceAll lru hd = rest := by
    rw [hsplit]
    exact pyReplaceAll_unique_head hd rest hne honce
  rcases hres : split_lru_in_stems rest false with _ | stems <;>
    simp [lru_is_node, hh, hrepl, hres]

theorem c4_is_node_counts_after_replace_witness :
    (lru_get_head "s:http|t:80|h:com|h:example|p:a|p:b|".toList [] =
       some "s:http|t:80|h:com|h:example|".toList ∧
     "s:http|t:80|h:com|h:example|p:a|p:b|".toList =
       "s:http|t:80|h:com|h:example|".toList ++ "p:a|p:b|".toList ∧
     pyInStr "s:http|t:80|h:com|h:example|".toList "p:a|p:b|".toList = false) ∧
    (lru_is_node "s:http|t:80|h:com|h:example|p:a|p:b|".toList 1 [] =
      (split_lru_in_stems "p:a|p:b|".toList false).map
        (fun stems => decide (stems.length ≤ 1)) ∧
     lru_is_node "s:http|t:80|h:com|h:example|".toList 1 [] = some true ∧
     lru_is_node "s:http|t:80|h:com|h:example|p:a|p:b|".toList 1 [] = some false) :=
  ⟨⟨by decide, by decide, by decide⟩,
   c4_is_node_counts_after_replace "s:http|t:80|h:com|h:example|p:a|p:b|".toList
     "s:http|t:80|h:com|h:example|".toList "p:a|p:b|".toList [] 1
     (by decide) (by decide) (by decide) (by decide)⟩

/-- C7 (amended): the scheme test of encode_url only checks that the scheme
STARTS with http (an unanchored match of the pattern https?), so every URL
whose scheme does not start with http is rejected, but a scheme such as
httpx is let through (the counterexample). -/
theorem c7_scheme_test_checks_http_start (scheme rest : Text) (hne : scheme ≠ [])
    (hdelim : ∀ c ∈ scheme, isUrlDelim c = false)
    (hns : "http".toList.isPrefixOf scheme = false) :
    url_to_lru (scheme ++ ':' :: rest) = none := by
  have hall : ∀ x ∈ scheme, (fun c => decide (¬ isUrlDelim c = true)) x = true := by
    intro x hx
    simp [hdelim x hx]
  have htw : (scheme ++ ':' :: rest).takeWhile (fun c => ¬ isUrlDelim c) = scheme := by
    rw [takeWhile_append_all _ scheme _ hall, List.takeWhile_cons_of_neg (by simp [isUrlDelim])]
    simp
  rcases hp : urlParse (scheme ++ ':' :: rest) with _ | g
  · simp [url_to_lru, hp]
  · have hs : g.scheme = scheme := by
      rw [urlParse_scheme _ _ hp, htw]
    have hm : lruSchemePatternMatches g.scheme = false := by
      rw [hs]
      exact hns
    rcases g with ⟨gs, ga, gpath, gq, gf⟩
    rcases ga with _ | a
    · simp [url_to_lru, hp]
    · simp only at hm
      simp [url_to_lru, hp, hm]

theorem c7_scheme_test_checks_http_start_witness :
    ("ftp".toList ≠ ([] : Text) ∧
     (∀ c ∈ "ftp".toList, isUrlDelim c = false) ∧
     "http".toList.isPrefixOf "ftp".toList = false) ∧
    url_to_lru ("ftp".toList ++ ':' :: "//a.com".toList) = none :=
  ⟨⟨by decide, by decide, by decide⟩,
   c7_scheme_test_checks_http_start "ftp".toList "//a.com".toList
     (by decide) (by decide) (by decide)⟩

/-- C8 (amended): standard-port stripping filters on the stem text alone,
with no regard to the scheme stem: on any rendered stem list it removes
exactly the stems whose full text is t:80 or t:443 and keeps everything
else, whatever the scheme stem says. -/
theorem c8_strip_ports_filters_on_text (stems : List Stem) (h : StemsClean stems)
    (hne : stems ≠ []) :
    lru_strip_standard_ports (renderLru stems) =
      some (add_trailing_pipe (pyJoin ['|']
        ((stems.filter (fun st =>
          ¬ (stemText st = "t:80".toList ∨ stemText st = "t:443".toList))).map stemText))) := by
  unfold lru_strip_standard_ports
  rw [split_lru_in_stems_render_false stems h hne]
  simp only [Option.map_some']
  rw [strip_filter_triple]

theorem c8_strip_ports_filters_on_text_witness :
    (StemsClean [('s', "http".toList), ('t', "443".toList), ('h', "com".toList)] ∧
     ([('s', "http".toList), ('t', "443".toList), ('h', "com".toList)] : List Stem) ≠ []) ∧
    lru_strip_standard_ports
        (renderLru [('s', "http".toList), ('t', "443".toList), ('h', "com".toList)]) =
      some (add_trailing_pipe (pyJoin ['|']
        (([('s', "http".toList), ('t', "443".toList), ('h', "com".toList)].filter (fun st =>
          ¬ (stemText st = "t:80".toList ∨ stemText st = "t:443".toList))).map stemText))) :=
  ⟨⟨by unfold StemsClean; decide, by decide⟩,
   c8_strip_ports_filters_on_text [('s', "http".toList), ('t', "443".toList), ('h', "com".toList)]
     (by unfold StemsClean; decide) (by decide)⟩

/-- C9 (amended): query-aware recode preserves exactly the pairs whose
value is NONEMPTY (keys free of equals and ampersand, values free of
ampersand): on such a pair list it recodes each key and value independently
and rejoins them in order; and whenever the query holds no equals sign at
all, the split degenerates and the whole string is recoded as one token.  A
pair with an empty value, as in a=&b=c, is outside this class and is
dropped (the counterexample). -/
theorem c9_recode_preserves_nonempty_value_pairs (pairs : List (Text × Text))
    (h : QueryPairsOK pairs) (hne : pairs ≠ []) :
    uri_recode_query (renderQuery pairs) =
      renderQuery (pairs.map (fun kv => (uri_recode kv.1 [], uri_recode kv.2 []))) ∧
    ∀ s : Text, '=' ∉ s → uri_recode_query s = uri_recode s [] := by
  constructor
  · have hsplit := queryStemsSplit_render pairs h hne
    have hbne : pairs.map (fun kv => (kv.1, kv.2, ([] : Text))) ≠ [] := by
      simpa using hne
    rw [uri_recode_query_eq_blocks (renderQuery pairs) []
      (pairs.map (fun kv => (kv.1, kv.2, ([] : Text)))) hsplit hbne]
    unfold renderQuery
    simp only [List.map_map]
    rfl
  · exact fun s hs => uri_recode_query_no_eq s hs

theorem c9_recode_preserves_nonempty_value_pairs_witness :
    (QueryPairsOK [("a".toList, "1".toList), ("b".toList, "c".toList)] ∧
     ([("a".toList, "1".toList), ("b".toList, "c".toList)] : List (Text × Text)) ≠ []) ∧
    (uri_recode_query (renderQuery [("a".toList, "1".toList), ("b".toList, "c".toList)]) =
      renderQuery ([("a".toList, "1".toList), ("b".toList, "c".toList)].map
        (fun kv => (uri_recode kv.1 [], uri_recode kv.2 []))) ∧
     ∀ s : Text, '=' ∉ s → uri_recode_query s = uri_recode s []) :=
  ⟨⟨by unfold QueryPairsOK; decide, by decide⟩,
   c9_recode_preserves_nonempty_value_pairs [("a".toList, "1".toList), ("b".toList, "c".toList)]
     (by unfold QueryPairsOK; decide) (by decide)⟩

/-- C10: on every input holding neither the substring s:http| nor s:https|,
lru_variations never returns normally; and whenever the initial URL
conversion succeeds, the failure is precisely the uninitialized-variable
error of the scheme-flip branch (the lru2 variable is never assigned). -/
theorem c10_variations_unassigned_scheme_flip (lru : Text)
    (h1 : pyInStr "s:http|".toList lru = false)
    (h2 : pyInStr "s:https|".toList lru = false) :
    (∀ res, lru_variations lru ≠ Except.ok res) ∧
    (∀ u, lru_to_url lru false = some u →
      lru_variations lru = Except.error PyErr.unboundLocal) := by
  rcases hu : lru_to_url lru false with _ | u
  · have hv : lru_variations lru = Except.error PyErr.valueError := by
      unfold lru_variations
      rw [hu]
      rfl
    constructor
    · intro res
      rw [hv]
      intro hcon
      cases hcon
    · intro u hu2
      cases hu2
  · have hv : lru_variations lru = Except.error PyErr.unboundLocal := by
      unfold lru_variations
      rw [hu, h1, h2]
      rfl
    constructor
    · intro res
      rw [hv]
      intro hcon
      cases hcon
    · intro u2 hu2
      exact hv

theorem c10_variations_unassigned_scheme_flip_witness :
    (pyInStr "s:http|".toList "s:ftp|t:21|h:com|".toList = false ∧
     pyInStr "s:https|".toList "s:ftp|t:21|h:com|".toList = false ∧
     lru_to_url "s:ftp|t:21|h:com|".toList false = some "ftp://com:21".toList) ∧
    lru_variations "s:ftp|t:21|h:com|".toList = Except.error PyErr.unboundLocal :=
  ⟨⟨by decide, by decide, by rfl⟩,
   (c10_variations_unassigned_scheme_flip _ (by decide) (by decide)).2
     "ftp://com:21".toList (by rfl)⟩

end Urllru
